import Mathlib

/-!
Verification development for the vodnik time-series ingest/storage core.

The definitions below are shallow embeddings of the Rust sources:
 - vodnik-core/src/meta.rs      (Quality, BlockMeta, recalc_block_data_full, helpers)
 - vodnik-core/src/wal.rs       (WalEntry write/read, frame layout, WalFrameIterator)
 - vodnik-server/src/wal.rs     (find_wal_to_recover, replay order)
 - vodnik-server/src/hot.rs     (HotData::write_into_block, flush_live)
 - vodnik-server/src/persistence.rs (write_cold, flush_block, read_block_from_storage)
 - vodnik-server/src/meta/block.rs  (BlockMetaStore upsert / model_to_meta)
 - vodnik-server/src/ingest.rs / vodnik-core/src/api.rs (BatchIngest::validate)

Machine integers are modelled as Nat/Int with explicit reductions mod 2^w at
the points where the Rust code truncates or wraps.
-/

namespace Vodnik

/-! ## Little-endian byte helpers (to_le_bytes / from_le_bytes) -/

/-- Little-endian encoding of a natural number into `w` bytes, low byte first,
like the Rust side's to_le_bytes (truncates above 2 ^ (8 * w)). -/
def leBytes : Nat → Nat → List Nat
  | 0, _ => []
  | w + 1, n => n % 256 :: leBytes w (n / 256)

/-- Little-endian value of a byte list, like from_le_bytes. -/
def leVal : List Nat → Nat
  | [] => 0
  | b :: bs => b + 256 * leVal bs

theorem leBytes_length (w n : Nat) : (leBytes w n).length = w := by
  induction w generalizing n with
  | zero => rfl
  | succ w ih => simp [leBytes, ih]

theorem leVal_leBytes (w n : Nat) : leVal (leBytes w n) = n % 256 ^ w := by
  induction w generalizing n with
  | zero => simp [leBytes, leVal, Nat.mod_one]
  | succ w ih =>
    simp only [leBytes, leVal, ih]
    rw [Nat.pow_succ', Nat.mod_mul]

theorem leVal_leBytes_of_lt {w n : Nat} (h : n < 256 ^ w) :
    leVal (leBytes w n) = n := by
  rw [leVal_leBytes, Nat.mod_eq_of_lt h]

theorem leBytes_mem_lt (w n : Nat) : ∀ b ∈ leBytes w n, b < 256 := by
  induction w generalizing n with
  | zero => simp [leBytes]
  | succ w ih =>
    intro b hb
    simp only [leBytes, List.mem_cons] at hb
    rcases hb with h | h
    · subst h; exact Nat.mod_lt _ (by norm_num)
    · exact ih _ b h

/-! ## Quality (vodnik-core meta.rs, OPC layout QQ_SSSS_LL) -/

def MASK_MAJOR : Nat := 0xC0
def Q_GOOD : Nat := 0xC0
def Q_BAD : Nat := 0x00
def Q_UNCERTAIN : Nat := 0x40
def Q_MISSING : Nat := 0x80

/-- Quality::is_good -/
def is_good (q : Nat) : Bool := q.land MASK_MAJOR == Q_GOOD

/-- Quality::is_bad -/
def is_bad (q : Nat) : Bool := q.land MASK_MAJOR == Q_BAD

/-- Quality::is_uncertain -/
def is_uncertain (q : Nat) : Bool := q.land MASK_MAJOR == Q_UNCERTAIN

/-- Quality::is_missing -/
def is_missing (q : Nat) : Bool := q.land MASK_MAJOR == Q_MISSING

/-- A slot is valid iff its major quality is Good or Uncertain
(the guard of the statistics branch in recalc_block_data_full). -/
def validQ (q : Nat) : Bool := is_good q || is_uncertain q

theorem validQ_not_missing {q : Nat} (h : validQ q = true) : is_missing q = false := by
  simp only [validQ, is_good, is_uncertain, is_missing, Bool.or_eq_true, beq_iff_eq] at *
  rcases h with h | h <;> simp [h, Q_GOOD, Q_UNCERTAIN, Q_MISSING]

/-! ## BlockMeta and recalc_block_data_full (vodnik-core meta.rs)

The statistics record is generic in Rust over a StorableNum sample type T with
a widened accumulator.  For the integer instantiations (i32/u32/i64/u64/u8)
both the sample type and the accumulator are order-embedded in Int; the type
is described by its bounds, and saturating_add clamps to the accumulator
bounds.  NumTy carries those bounds. -/

structure NumTy where
  tmin : Int
  tmax : Int
  amin : Int
  amax : Int
  deriving Repr, DecidableEq

/-- Accumulator saturating_add (SafeAdd::safe_add for the integer types). -/
def satAdd (P : NumTy) (a b : Int) : Int := max P.amin (min (a + b) P.amax)

/-- BlockMeta fields; u32 fields are Nat (kept below 2 ^ 32 by explicit mod),
samples and the accumulator are Int. -/
structure RMeta where
  count_non_missing : Nat
  count_valid : Nat
  sum : Int
  min : Int
  max : Int
  fst_valid : Int
  fst_valid_q : Nat
  lst_valid : Int
  lst_valid_q : Nat
  fst_valid_offset : Nat
  lst_valid_offset : Nat
  fst : Int
  fst_q : Nat
  lst : Int
  lst_q : Nat
  fst_offset : Nat
  lst_offset : Nat
  qual_acc_or : Nat
  qual_acc_and : Nat
  object_key : String
  deriving Repr, DecidableEq

/-- BlockMeta::new() -/
def metaNew (P : NumTy) : RMeta where
  count_non_missing := 0
  count_valid := 0
  fst_offset := 2 ^ 32 - 1
  lst_offset := 0
  sum := 0
  min := P.tmax
  max := P.tmin
  fst := 0
  lst := 0
  qual_acc_or := 0
  qual_acc_and := 0xFFFFFFFF
  fst_valid := 0
  fst_valid_q := Q_MISSING
  lst_valid := 0
  lst_valid_q := Q_MISSING
  fst_valid_offset := 2 ^ 32 - 1
  lst_valid_offset := 0
  fst_q := Q_MISSING
  lst_q := Q_MISSING
  object_key := ""

def ACC_GOOD : Nat := 1
def ACC_BAD : Nat := 2
def ACC_UNCERTAIN : Nat := 4
def ACC_NODATA : Nat := 8

/-- The 4-bit quality flag computed per slot in recalc_block_data_full. -/
def qflag (q : Nat) : Nat :=
  if is_missing q then ACC_NODATA
  else if is_bad q then ACC_BAD
  else if is_uncertain q then ACC_UNCERTAIN
  else ACC_GOOD

/-- One loop iteration of recalc_block_data_full for slot idx holding value v
and quality q.  The Rust body mutates the record sequentially but never reads
a field it has already written in the same iteration, so the simultaneous
record update below is the same function. -/
def stepSlot (P : NumTy) (idx : Nat) (v : Int) (q : Nat) (m : RMeta) : RMeta :=
  let flag := qflag q
  if is_missing q then
    { m with qual_acc_or := m.qual_acc_or ||| flag, qual_acc_and := m.qual_acc_and &&& flag }
  else
    { m with
      qual_acc_or := m.qual_acc_or ||| flag
      qual_acc_and := m.qual_acc_and &&& flag
      count_non_missing := (m.count_non_missing + 1) % 2 ^ 32
      fst_offset := if idx < m.fst_offset then idx else m.fst_offset
      fst := if idx < m.fst_offset then v else m.fst
      fst_q := if idx < m.fst_offset then q else m.fst_q
      lst_offset := if m.lst_offset ≤ idx then idx else m.lst_offset
      lst := if m.lst_offset ≤ idx then v else m.lst
      lst_q := if m.lst_offset ≤ idx then q else m.lst_q
      count_valid := if validQ q then (m.count_valid + 1) % 2 ^ 32 else m.count_valid
      sum := if validQ q then satAdd P m.sum v else m.sum
      min := if validQ q ∧ v < m.min then v else m.min
      max := if validQ q ∧ m.max < v then v else m.max
      fst_valid_offset := if validQ q ∧ idx < m.fst_valid_offset then idx else m.fst_valid_offset
      fst_valid := if validQ q ∧ idx < m.fst_valid_offset then v else m.fst_valid
      fst_valid_q := if validQ q ∧ idx < m.fst_valid_offset then q else m.fst_valid_q
      lst_valid_offset := if validQ q ∧ m.lst_valid_offset ≤ idx then idx else m.lst_valid_offset
      lst_valid := if validQ q ∧ m.lst_valid_offset ≤ idx then v else m.lst_valid
      lst_valid_q := if validQ q ∧ m.lst_valid_offset ≤ idx then q else m.lst_valid_q }

/-- The scan loop (for i in 0..len).  The index is reduced mod 2 ^ 32 because
the Rust code casts the usize loop counter to u32 (let idx = i as u32). -/
def recalcLoop (P : NumTy) : Nat → List (Int × Nat) → RMeta → RMeta
  | _, [], m => m
  | i, (v, q) :: rest, m => recalcLoop P (i + 1) rest (stepSlot P (i % 2 ^ 32) v q m)

/-- BlockMeta::recalc_block_data_full: reset, scan, and the final
"no data -> no min/max" fixup.  Note that the reset section does NOT touch
lst, lst_q, lst_valid, lst_valid_q (nor object_key). -/
def recalc_block_data_full (P : NumTy) (m : RMeta) (vals : List Int) (qs : List Nat) : RMeta :=
  let m0 := { m with
    count_non_missing := 0
    count_valid := 0
    sum := 0
    min := P.tmax
    max := P.tmin
    fst_offset := 2 ^ 32 - 1
    lst_offset := 0
    fst := 0
    fst_q := Q_MISSING
    fst_valid_offset := 2 ^ 32 - 1
    lst_valid_offset := 0
    fst_valid := 0
    fst_valid_q := Q_MISSING
    qual_acc_or := 0
    qual_acc_and := 2 ^ 32 - 1 }
  let r := recalcLoop P 0 (vals.zip qs) m0
  if r.count_valid = 0 then { r with min := 0, max := 0 } else r

/-! ## BatchIngest::validate (vodnik-server ingest.rs and vodnik-core api.rs;
the two copies have the same body).  The vals vector enters validate only
through ValueVec::len, so it is represented by its length here. -/

inductive IngestError where
  | LengthMismatch
  | InvalidTimestamp (msg : String)
  | TypeMismatch
  deriving Repr, DecidableEq

/-- The for-window loop over ts: fails at the first strictly decreasing
adjacent pair. -/
def tsAscending : List Nat → Bool
  | [] => true
  | [_] => true
  | t1 :: t2 :: r => if t1 > t2 then false else tsAscending (t2 :: r)

/-- BatchIngest::validate.  The first guard is transcribed exactly as written
in the source: ts.len() != vals.len() AND vals.len() == qs.len(). -/
def validate (ts : List Nat) (valsLen : Nat) (qs : List Nat) : Except IngestError Unit :=
  if ts.length ≠ valsLen ∧ valsLen = qs.length then .error .LengthMismatch
  else if ts.length = 0 then .error (.InvalidTimestamp "no timestamps given")
  else if !tsAscending ts then
    .error (.InvalidTimestamp "timestamps must be sorted in ascending order")
  else .ok ()

/-! ## Specification-side views of the scan, and field characterizations -/

/-- The values of the valid (Good or Uncertain) slots, in slot order. -/
def validVals (l : List (Int × Nat)) : List Int :=
  (l.filter fun p => validQ p.2).map Prod.fst

/-- The per-slot 4-bit quality flags. -/
def flagsOf (l : List (Int × Nat)) : List Nat := l.map fun p => qflag p.2

def minFold (a : Int) (l : List Int) : Int := l.foldl (fun acc v => if v < acc then v else acc) a

def maxFold (a : Int) (l : List Int) : Int := l.foldl (fun acc v => if acc < v then v else acc) a

def orFold (a : Nat) (l : List Nat) : Nat := l.foldl (· ||| ·) a

def andFold (a : Nat) (l : List Nat) : Nat := l.foldl (· &&& ·) a

theorem missing_not_validQ {q : Nat} (h : is_missing q = true) : validQ q = false := by
  cases hv : validQ q
  · rfl
  · exact absurd (validQ_not_missing hv) (by simp [h])

theorem validVals_cons (v : Int) (q : Nat) (l : List (Int × Nat)) :
    validVals ((v, q) :: l) = if validQ q then v :: validVals l else validVals l := by
  by_cases h : validQ q = true <;> simp [validVals, List.filter_cons, h]

theorem recalcLoop_count_valid (P : NumTy) (L : List (Int × Nat)) :
    ∀ (i : Nat) (m : RMeta), m.count_valid < 2 ^ 32 →
      (recalcLoop P i L m).count_valid = (m.count_valid + (validVals L).length) % 2 ^ 32 := by
  induction L with
  | nil =>
    intro i m hm
    simp only [recalcLoop, validVals, List.filter_nil, List.map_nil, List.length_nil,
      Nat.add_zero]
    omega
  | cons p rest ih =>
    intro i m hm
    obtain ⟨v, q⟩ := p
    by_cases hq : validQ q = true
    · have hmq : is_missing q = false := validQ_not_missing hq
      rw [recalcLoop, ih _ _ (by simp [stepSlot, hmq, hq]; exact Nat.mod_lt _ (by norm_num))]
      simp only [stepSlot, hmq, hq, validVals_cons, if_pos, Bool.false_eq_true, if_false,
        if_true, List.length_cons]
      rw [Nat.mod_add_mod]
      ring_nf
    · by_cases hmq : is_missing q = true
      · rw [recalcLoop, ih _ _ (by simp [stepSlot, hmq]; exact hm)]
        simp [stepSlot, hmq, hq, validVals_cons]
      · rw [recalcLoop, ih _ _ (by simp [stepSlot, hmq, hq]; exact hm)]
        simp [stepSlot, hmq, hq, validVals_cons]

theorem recalcLoop_sum (P : NumTy) (L : List (Int × Nat)) :
    ∀ (i : Nat) (m : RMeta),
      (recalcLoop P i L m).sum = (validVals L).foldl (satAdd P) m.sum := by
  induction L with
  | nil => intro i m; simp [recalcLoop, validVals]
  | cons p rest ih =>
    intro i m
    obtain ⟨v, q⟩ := p
    by_cases hq : validQ q = true
    · have hmq : is_missing q = false := validQ_not_missing hq
      rw [recalcLoop, ih]
      simp [stepSlot, hmq, hq, validVals_cons]
    · by_cases hmq : is_missing q = true
      · rw [recalcLoop, ih]; simp [stepSlot, hmq, hq, validVals_cons]
      · rw [recalcLoop, ih]; simp [stepSlot, hmq, hq, validVals_cons]

theorem recalcLoop_min (P : NumTy) (L : List (Int × Nat)) :
    ∀ (i : Nat) (m : RMeta),
      (recalcLoop P i L m).min = minFold m.min (validVals L) := by
  induction L with
  | nil => intro i m; simp [recalcLoop, validVals, minFold]
  | cons p rest ih =>
    intro i m
    obtain ⟨v, q⟩ := p
    by_cases hq : validQ q = true
    · have hmq : is_missing q = false := validQ_not_missing hq
      rw [recalcLoop, ih]
      simp [stepSlot, hmq, hq, validVals_cons, minFold]
    · by_cases hmq : is_missing q = true
      · rw [recalcLoop, ih]; simp [stepSlot, hmq, hq, validVals_cons, minFold]
      · rw [recalcLoop, ih]; simp [stepSlot, hmq, hq, validVals_cons, minFold]

theorem recalcLoop_max (P : NumTy) (L : List (Int × Nat)) :
    ∀ (i : Nat) (m : RMeta),
      (recalcLoop P i L m).max = maxFold m.max (validVals L) := by
  induction L with
  | nil => intro i m; simp [recalcLoop, validVals, maxFold]
  | cons p rest ih =>
    intro i m
    obtain ⟨v, q⟩ := p
    by_cases hq : validQ q = true
    · have hmq : is_missing q = false := validQ_not_missing hq
      rw [recalcLoop, ih]
      simp [stepSlot, hmq, hq, validVals_cons, maxFold]
    · by_cases hmq : is_missing q = true
      · rw [recalcLoop, ih]; simp [stepSlot, hmq, hq, validVals_cons, maxFold]
      · rw [recalcLoop, ih]; simp [stepSlot, hmq, hq, validVals_cons, maxFold]

theorem recalcLoop_or (P : NumTy) (L : List (Int × Nat)) :
    ∀ (i : Nat) (m : RMeta),
      (recalcLoop P i L m).qual_acc_or = orFold m.qual_acc_or (flagsOf L) := by
  induction L with
  | nil => intro i m; simp [recalcLoop, flagsOf, orFold]
  | cons p rest ih =>
    intro i m
    obtain ⟨v, q⟩ := p
    by_cases hmq : is_missing q = true
    · rw [recalcLoop, ih]; simp [stepSlot, hmq, flagsOf, orFold]
    · rw [recalcLoop, ih]; simp [stepSlot, hmq, flagsOf, orFold]

theorem recalcLoop_and (P : NumTy) (L : List (Int × Nat)) :
    ∀ (i : Nat) (m : RMeta),
      (recalcLoop P i L m).qual_acc_and = andFold m.qual_acc_and (flagsOf L) := by
  induction L with
  | nil => intro i m; simp [recalcLoop, flagsOf, andFold]
  | cons p rest ih =>
    intro i m
    obtain ⟨v, q⟩ := p
    by_cases hmq : is_missing q = true
    · rw [recalcLoop, ih]; simp [stepSlot, hmq, flagsOf, andFold]
    · rw [recalcLoop, ih]; simp [stepSlot, hmq, flagsOf, andFold]

theorem minFold_le_init (l : List Int) : ∀ a : Int, minFold a l ≤ a := by
  induction l with
  | nil => intro a; simp [minFold]
  | cons y l ih =>
    intro a
    have h := ih (if y < a then y else a)
    simp only [minFold, List.foldl_cons] at h ⊢
    by_cases hc : y < a
    · simp only [if_pos hc] at h ⊢; omega
    · simp only [if_neg hc] at h ⊢; omega

theorem minFold_le_mem (l : List Int) : ∀ (a x : Int), x ∈ l → minFold a l ≤ x := by
  induction l with
  | nil => intro a x hx; simp at hx
  | cons y l ih =>
    intro a x hx
    rcases List.mem_cons.mp hx with h | h
    · subst h
      have h1 := minFold_le_init l (if x < a then x else a)
      simp only [minFold, List.foldl_cons] at h1 ⊢
      by_cases hc : x < a
      · simp only [if_pos hc] at h1 ⊢; omega
      · simp only [if_neg hc] at h1 ⊢; omega
    · have h1 := ih (if y < a then y else a) x h
      simp only [minFold, List.foldl_cons] at h1 ⊢
      exact h1

theorem minFold_mem_or (l : List Int) : ∀ a : Int, minFold a l = a ∨ minFold a l ∈ l := by
  induction l with
  | nil => intro a; left; rfl
  | cons y l ih =>
    intro a
    have h := ih (if y < a then y else a)
    simp only [minFold, List.foldl_cons] at h ⊢
    rcases h with h | h
    · rw [h]; split
      · right; exact List.mem_cons_self _ _
      · left; rfl
    · right; exact List.mem_cons_of_mem _ h

theorem minFold_mem_of_le (l : List Int) (a : Int) (hne : l ≠ [])
    (hle : ∀ x ∈ l, x ≤ a) : minFold a l ∈ l := by
  rcases minFold_mem_or l a with h | h
  · obtain ⟨y, t, rfl⟩ := List.exists_cons_of_ne_nil hne
    have h1 : minFold a (y :: t) ≤ y := minFold_le_mem _ _ _ (List.mem_cons_self _ _)
    have h2 : y ≤ a := hle y (List.mem_cons_self _ _)
    have : y = minFold a (y :: t) := by omega
    rw [← this]
    exact List.mem_cons_self _ _
  · exact h

theorem maxFold_init_le (l : List Int) : ∀ a : Int, a ≤ maxFold a l := by
  induction l with
  | nil => intro a; simp [maxFold]
  | cons y l ih =>
    intro a
    have h := ih (if a < y then y else a)
    simp only [maxFold, List.foldl_cons] at h ⊢
    by_cases hc : a < y
    · simp only [if_pos hc] at h ⊢; omega
    · simp only [if_neg hc] at h ⊢; omega

theorem maxFold_mem_le (l : List Int) : ∀ (a x : Int), x ∈ l → x ≤ maxFold a l := by
  induction l with
  | nil => intro a x hx; simp at hx
  | cons y l ih =>
    intro a x hx
    rcases List.mem_cons.mp hx with h | h
    · subst h
      have h1 := maxFold_init_le l (if a < x then x else a)
      simp only [maxFold, List.foldl_cons] at h1 ⊢
      by_cases hc : a < x
      · simp only [if_pos hc] at h1 ⊢; omega
      · simp only [if_neg hc] at h1 ⊢; omega
    · have h1 := ih (if a < y then y else a) x h
      simp only [maxFold, List.foldl_cons] at h1 ⊢
      exact h1

theorem maxFold_mem_or (l : List Int) : ∀ a : Int, maxFold a l = a ∨ maxFold a l ∈ l := by
  induction l with
  | nil => intro a; left; rfl
  | cons y l ih =>
    intro a
    have h := ih (if a < y then y else a)
    simp only [maxFold, List.foldl_cons] at h ⊢
    rcases h with h | h
    · rw [h]; split
      · right; exact List.mem_cons_self _ _
      · left; rfl
    · right; exact List.mem_cons_of_mem _ h

theorem maxFold_mem_of_le (l : List Int) (a : Int) (hne : l ≠ [])
    (hge : ∀ x ∈ l, a ≤ x) : maxFold a l ∈ l := by
  rcases maxFold_mem_or l a with h | h
  · obtain ⟨y, t, rfl⟩ := List.exists_cons_of_ne_nil hne
    have h1 : y ≤ maxFold a (y :: t) := maxFold_mem_le _ _ _ (List.mem_cons_self _ _)
    have h2 : a ≤ y := hge y (List.mem_cons_self _ _)
    have : y = maxFold a (y :: t) := by omega
    rw [← this]
    exact List.mem_cons_self _ _
  · exact h

theorem andFold_testBit (l : List Nat) :
    ∀ (a : Nat) (i : Nat), (andFold a l).testBit i = true →
      a.testBit i = true ∧ ∀ x ∈ l, x.testBit i = true := by
  induction l with
  | nil => intro a i h; exact ⟨h, by simp⟩
  | cons y l ih =>
    intro a i h
    have h1 := ih (a &&& y) i h
    rw [Nat.testBit_and] at h1
    obtain ⟨hb, hrest⟩ := h1
    rw [Bool.and_eq_true] at hb
    exact ⟨hb.1, by
      intro x hx
      rcases List.mem_cons.mp hx with h | h
      · subst h; exact hb.2
      · exact hrest x h⟩

theorem orFold_testBit_init (l : List Nat) :
    ∀ (a : Nat) (i : Nat), a.testBit i = true → (orFold a l).testBit i = true := by
  induction l with
  | nil => intro a i h; exact h
  | cons y l ih =>
    intro a i h
    exact ih (a ||| y) i (by rw [Nat.testBit_or, h]; rfl)

theorem orFold_testBit_of_mem (l : List Nat) :
    ∀ (a x : Nat) (i : Nat), x ∈ l → x.testBit i = true → (orFold a l).testBit i = true := by
  induction l with
  | nil => intro a x i hx; simp at hx
  | cons y l ih =>
    intro a x i hx hb
    rcases List.mem_cons.mp hx with h | h
    · subst h
      exact orFold_testBit_init l (a ||| x) i (by rw [Nat.testBit_or, hb]; simp)
    · exact ih (a ||| y) x i h hb

/-- AND accumulated over a non-empty flag list is a bitwise subset of the OR
accumulated over the same list (the invariant qual_acc_and AND NOT qual_acc_or
is zero). -/
theorem andFold_ldiff_orFold (l : List Nat) (hne : l ≠ []) (top bot : Nat) :
    Nat.ldiff (andFold top l) (orFold bot l) = 0 := by
  apply Nat.eq_of_testBit_eq
  intro i
  rw [Nat.testBit_ldiff, Nat.zero_testBit]
  cases hA : (andFold top l).testBit i
  · rfl
  · obtain ⟨y, t, rfl⟩ := List.exists_cons_of_ne_nil hne
    have hy : y.testBit i = true := (andFold_testBit _ _ _ hA).2 y (List.mem_cons_self _ _)
    rw [orFold_testBit_of_mem _ bot y i (List.mem_cons_self _ _) hy]
    rfl

theorem mem_validVals_zip {vals : List Int} {qs : List Nat} {x : Int}
    (h : x ∈ validVals (vals.zip qs)) : x ∈ vals := by
  simp only [validVals, List.mem_map, List.mem_filter] at h
  obtain ⟨p, ⟨hp, _⟩, rfl⟩ := h
  exact (List.of_mem_zip hp).1

theorem validVals_length_eq {vals : List Int} {qs : List Nat}
    (hlen : vals.length = qs.length) :
    (validVals (vals.zip qs)).length = (qs.filter validQ).length := by
  induction vals generalizing qs with
  | nil => cases qs with
    | nil => rfl
    | cons q qs => simp at hlen
  | cons v vs ih =>
    cases qs with
    | nil => simp at hlen
    | cons q qs =>
      simp only [List.length_cons, Nat.succ.injEq] at hlen
      simp only [List.zip_cons_cons, validVals_cons, List.filter_cons]
      by_cases h : validQ q = true <;> simp [h, ih hlen]

theorem validVals_length_le (L : List (Int × Nat)) : (validVals L).length ≤ L.length := by
  simp only [validVals, List.length_map]
  exact List.length_filter_le _ _

theorem recalc_core (P : NumTy) (L : List (Int × Nat)) (m0 r : RMeta)
    (hr : r = (if (recalcLoop P 0 L m0).count_valid = 0
               then { recalcLoop P 0 L m0 with min := 0, max := 0 }
               else recalcLoop P 0 L m0))
    (h0 : m0.count_valid = 0) (hs0 : m0.sum = 0) (hmin0 : m0.min = P.tmax)
    (hmax0 : m0.max = P.tmin) (hLne : L ≠ []) (hLsz : L.length < 2 ^ 32)
    (hvv : ∀ x ∈ validVals L, P.tmin ≤ x ∧ x ≤ P.tmax) :
    r.count_valid = (validVals L).length ∧
    r.sum = (validVals L).foldl (satAdd P) 0 ∧
    ((validVals L).length = 0 → r.min = 0 ∧ r.max = 0) ∧
    ((validVals L).length ≠ 0 →
      r.min ∈ validVals L ∧ r.max ∈ validVals L ∧
      ∀ x ∈ validVals L, r.min ≤ x ∧ x ≤ r.max) ∧
    Nat.ldiff r.qual_acc_and r.qual_acc_or = 0 := by
  have hvsz : (validVals L).length < 2 ^ 32 :=
    Nat.lt_of_le_of_lt (validVals_length_le L) hLsz
  have hcv : (recalcLoop P 0 L m0).count_valid = (validVals L).length := by
    rw [recalcLoop_count_valid P L 0 m0 (by rw [h0]; norm_num)]
    rw [h0, Nat.zero_add, Nat.mod_eq_of_lt hvsz]
  have hsum : (recalcLoop P 0 L m0).sum = (validVals L).foldl (satAdd P) 0 := by
    rw [recalcLoop_sum, hs0]
  have hmin : (recalcLoop P 0 L m0).min = minFold P.tmax (validVals L) := by
    rw [recalcLoop_min, hmin0]
  have hmax : (recalcLoop P 0 L m0).max = maxFold P.tmin (validVals L) := by
    rw [recalcLoop_max, hmax0]
  have hfne : flagsOf L ≠ [] := by
    cases L with
    | nil => exact absurd rfl hLne
    | cons p t => simp [flagsOf]
  have hld : Nat.ldiff (recalcLoop P 0 L m0).qual_acc_and
      (recalcLoop P 0 L m0).qual_acc_or = 0 := by
    rw [recalcLoop_and, recalcLoop_or]
    exact andFold_ldiff_orFold (flagsOf L) hfne _ _
  by_cases hz : (validVals L).length = 0
  · have hif : (recalcLoop P 0 L m0).count_valid = 0 := by rw [hcv, hz]
    rw [hr, if_pos hif]
    refine ⟨by simpa [hif] using hz.symm, by simpa using hsum, fun _ => ⟨rfl, rfl⟩,
      fun hcon => absurd hz hcon, by simpa using hld⟩
  · have hif : ¬((recalcLoop P 0 L m0).count_valid = 0) := by rw [hcv]; exact hz
    rw [hr, if_neg hif]
    have hvne : validVals L ≠ [] := by
      intro h; exact hz (by rw [h]; rfl)
    refine ⟨hcv, hsum, fun hcon => absurd hcon hz, fun _ => ?_, hld⟩
    refine ⟨?_, ?_, ?_⟩
    · rw [hmin]
      exact minFold_mem_of_le _ _ hvne fun x hx => (hvv x hx).2
    · rw [hmax]
      exact maxFold_mem_of_le _ _ hvne fun x hx => (hvv x hx).1
    · intro x hx
      rw [hmin, hmax]
      exact ⟨minFold_le_mem _ _ _ hx, maxFold_mem_le _ _ _ hx⟩

/-- C5: after recalc_block_data_full over equal-length non-empty value and
quality vectors (of realistic size, below 2 ^ 32 as dictated by the u32
counters), count_valid is the number of Good-or-Uncertain slots, sum is the
saturating widened sum over those slots, min and max are the minimum and
maximum of the valid values and are both zero when count_valid is zero, and
qual_acc_and AND NOT qual_acc_or is zero. -/
theorem C5_recalc_statistics_consistency (P : NumTy) (m : RMeta) (vals : List Int)
    (qs : List Nat) (hlen : vals.length = qs.length) (hne : vals ≠ [])
    (hsz : vals.length < 2 ^ 32) (hv : ∀ v ∈ vals, P.tmin ≤ v ∧ v ≤ P.tmax) :
    (recalc_block_data_full P m vals qs).count_valid = (qs.filter validQ).length ∧
    (recalc_block_data_full P m vals qs).sum
      = (validVals (vals.zip qs)).foldl (satAdd P) 0 ∧
    ((qs.filter validQ).length = 0 →
      (recalc_block_data_full P m vals qs).min = 0 ∧
      (recalc_block_data_full P m vals qs).max = 0) ∧
    ((qs.filter validQ).length ≠ 0 →
      (recalc_block_data_full P m vals qs).min ∈ validVals (vals.zip qs) ∧
      (recalc_block_data_full P m vals qs).max ∈ validVals (vals.zip qs) ∧
      ∀ x ∈ validVals (vals.zip qs),
        (recalc_block_data_full P m vals qs).min ≤ x ∧
        x ≤ (recalc_block_data_full P m vals qs).max) ∧
    Nat.ldiff (recalc_block_data_full P m vals qs).qual_acc_and
      (recalc_block_data_full P m vals qs).qual_acc_or = 0 := by
  have hLne : vals.zip qs ≠ [] := by
    cases vals with
    | nil => exact absurd rfl hne
    | cons v vs =>
      cases qs with
      | nil => simp at hlen
      | cons q qt => simp [List.zip_cons_cons]
  have hLsz : (vals.zip qs).length < 2 ^ 32 := by
    rw [List.length_zip]
    omega
  have hvv : ∀ x ∈ validVals (vals.zip qs), P.tmin ≤ x ∧ x ≤ P.tmax :=
    fun x hx => hv x (mem_validVals_zip hx)
  have hcore := recalc_core P (vals.zip qs)
    { m with
      count_non_missing := 0, count_valid := 0, sum := 0, min := P.tmax, max := P.tmin,
      fst_offset := 2 ^ 32 - 1, lst_offset := 0, fst := 0, fst_q := Q_MISSING,
      fst_valid_offset := 2 ^ 32 - 1, lst_valid_offset := 0, fst_valid := 0,
      fst_valid_q := Q_MISSING, qual_acc_or := 0, qual_acc_and := 2 ^ 32 - 1 }
    (recalc_block_data_full P m vals qs) rfl rfl rfl rfl rfl hLne hLsz hvv
  rw [validVals_length_eq hlen] at hcore
  exact hcore

/-- C5 witness: the statistics consistency theorem applied to a concrete
two-sample block (one Good slot, one Missing slot). -/
theorem C5_witness :
    (recalc_block_data_full ⟨0, 100, 0, 1000⟩ (metaNew ⟨0, 100, 0, 1000⟩) [1, 2]
        [Q_GOOD, Q_MISSING]).count_valid
      = ([Q_GOOD, Q_MISSING].filter validQ).length :=
  (C5_recalc_statistics_consistency ⟨0, 100, 0, 1000⟩ (metaNew ⟨0, 100, 0, 1000⟩)
    [1, 2] [Q_GOOD, Q_MISSING] (by decide) (by decide) (by decide) (by decide)).1

/-- C2: BatchIngest::validate as written accepts a request with
len(ts) = 1, len(vals) = 1, len(qs) = 2 even though the three lengths are
not all equal, because its guard tests ts != vals AND vals == qs instead
of rejecting any mismatch. -/
theorem C2_validate_accepts_length_mismatch :
    validate [0] 1 [Q_GOOD, Q_GOOD] = Except.ok () ∧
      (1 : Nat) ≠ [Q_GOOD, Q_GOOD].length := ⟨rfl, by decide⟩

/-! ## C4: what recalc_block_data_full does and does not reset -/

/-- Projection that blanks exactly the fields the reset section of
recalc_block_data_full does not touch: lst, lst_q, lst_valid, lst_valid_q
and object_key. -/
def projStable (m : RMeta) : RMeta :=
  { m with lst := 0, lst_q := 0, lst_valid := 0, lst_valid_q := 0, object_key := "" }

theorem stepSlot_projStable (P : NumTy) (idx : Nat) (v : Int) (q : Nat) {m1 m2 : RMeta}
    (h : projStable m1 = projStable m2) :
    projStable (stepSlot P idx v q m1) = projStable (stepSlot P idx v q m2) := by
  cases m1
  cases m2
  simp only [projStable, RMeta.mk.injEq, and_true, true_and] at h ⊢
  obtain ⟨e1, e2, e3, e4, e5, e6, e7, e8, e9, e10, e11, e12, e13, e14, e15⟩ := h
  subst e1 e2 e3 e4 e5 e6 e7 e8 e9 e10 e11 e12 e13 e14 e15
  by_cases hmq : is_missing q = true <;> simp [stepSlot, hmq]

theorem recalcLoop_projStable (P : NumTy) (L : List (Int × Nat)) :
    ∀ (i : Nat) (m1 m2 : RMeta), projStable m1 = projStable m2 →
      projStable (recalcLoop P i L m1) = projStable (recalcLoop P i L m2) := by
  induction L with
  | nil => intro i m1 m2 h; exact h
  | cons p rest ih =>
    intro i m1 m2 h
    obtain ⟨v, q⟩ := p
    exact ih (i + 1) _ _ (stepSlot_projStable P (i % 2 ^ 32) v q h)

theorem projStable_count_valid (m : RMeta) : (projStable m).count_valid = m.count_valid := rfl

/-- The last element of the list satisfying pred (a left fold that keeps the
latest hit), used to describe the lst/lst_valid fields after the scan. -/
def lastSat (pred : (Int × Nat) → Bool) (l : List (Int × Nat)) : Option (Int × Nat) :=
  l.foldl (fun acc p => if pred p then some p else acc) none

theorem lastSat_aux (pred : (Int × Nat) → Bool) (l : List (Int × Nat)) :
    ∀ acc : Option (Int × Nat),
      l.foldl (fun acc p => if pred p then some p else acc) acc
        = (match lastSat pred l with
            | some p => some p
            | none => acc) := by
  induction l with
  | nil => intro acc; rfl
  | cons p t ih =>
    intro acc
    simp only [List.foldl_cons, lastSat] at *
    rw [ih, ih (if pred p then some p else none)]
    rcases hls : t.foldl (fun acc p => if pred p then some p else acc) none with _ | q
    · by_cases hp : pred p = true <;> simp [hp]
    · simp

theorem lastSat_cons (pred : (Int × Nat) → Bool) (p : Int × Nat) (t : List (Int × Nat)) :
    lastSat pred (p :: t)
      = (match lastSat pred t with
          | some r => some r
          | none => if pred p then some p else none) := by
  simp only [lastSat, List.foldl_cons]
  rw [lastSat_aux]
  rfl

theorem lastSat_isSome (pred : (Int × Nat) → Bool) (l : List (Int × Nat))
    (h : ∃ p ∈ l, pred p = true) : ∃ r, lastSat pred l = some r := by
  induction l with
  | nil => simp at h
  | cons p t ih =>
    rw [lastSat_cons]
    by_cases ht : ∃ r ∈ t, pred r = true
    · obtain ⟨r0, hr0⟩ := ih ht
      exact ⟨r0, by rw [hr0]⟩
    · rcases hls : lastSat pred t with _ | r0
      · obtain ⟨pw, hpw, hpred⟩ := h
        rcases List.mem_cons.mp hpw with hh | hh
        · subst hh
          exact ⟨pw, by simp [hpred]⟩
        · exact absurd ⟨pw, hh, hpred⟩ ht
      · exact ⟨r0, rfl⟩

theorem recalcLoop_lst (P : NumTy) (L : List (Int × Nat)) :
    ∀ (i : Nat) (m : RMeta), m.lst_offset ≤ i → i + L.length ≤ 2 ^ 32 →
      ((recalcLoop P i L m).lst, (recalcLoop P i L m).lst_q)
        = (match lastSat (fun p => !is_missing p.2) L with
            | some p => (p.1, p.2)
            | none => (m.lst, m.lst_q)) := by
  induction L with
  | nil => intro i m hoff hsz; rfl
  | cons p t ih =>
    intro i m hoff hsz
    obtain ⟨v, q⟩ := p
    simp only [List.length_cons] at hsz
    have hi : i < 2 ^ 32 := by omega
    have hidx : i % 2 ^ 32 = i := Nat.mod_eq_of_lt hi
    rw [recalcLoop, lastSat_cons, hidx]
    by_cases hmq : is_missing q = true
    · have hstep : (stepSlot P i v q m).lst_offset = m.lst_offset ∧
          (stepSlot P i v q m).lst = m.lst ∧
          (stepSlot P i v q m).lst_q = m.lst_q := by
        simp [stepSlot, hmq]
      rw [ih (i + 1) _ (by rw [hstep.1]; omega) (by omega)]
      rcases hls : lastSat (fun p => !is_missing p.2) t with _ | r
      · simp [hmq, hstep.2.1, hstep.2.2]
      · simp
    · have hstep : (stepSlot P i v q m).lst_offset = i ∧
          (stepSlot P i v q m).lst = v ∧
          (stepSlot P i v q m).lst_q = q := by
        simp [stepSlot, hmq, hoff]
      rw [ih (i + 1) _ (by rw [hstep.1]; omega) (by omega)]
      rcases hls : lastSat (fun p => !is_missing p.2) t with _ | r
      · simp [hmq, hstep.2.1, hstep.2.2]
      · simp

theorem recalcLoop_lst_valid (P : NumTy) (L : List (Int × Nat)) :
    ∀ (i : Nat) (m : RMeta), m.lst_valid_offset ≤ i → i + L.length ≤ 2 ^ 32 →
      ((recalcLoop P i L m).lst_valid, (recalcLoop P i L m).lst_valid_q)
        = (match lastSat (fun p => validQ p.2) L with
            | some p => (p.1, p.2)
            | none => (m.lst_valid, m.lst_valid_q)) := by
  induction L with
  | nil => intro i m hoff hsz; rfl
  | cons p t ih =>
    intro i m hoff hsz
    obtain ⟨v, q⟩ := p
    simp only [List.length_cons] at hsz
    have hi : i < 2 ^ 32 := by omega
    have hidx : i % 2 ^ 32 = i := Nat.mod_eq_of_lt hi
    rw [recalcLoop, lastSat_cons, hidx]
    by_cases hvq : validQ q = true
    · have hmq : is_missing q = false := validQ_not_missing hvq
      have hstep : (stepSlot P i v q m).lst_valid_offset = i ∧
          (stepSlot P i v q m).lst_valid = v ∧
          (stepSlot P i v q m).lst_valid_q = q := by
        simp [stepSlot, hmq, hvq, hoff]
      rw [ih (i + 1) _ (by rw [hstep.1]; omega) (by omega)]
      rcases hls : lastSat (fun p => validQ p.2) t with _ | r
      · simp [hvq, hstep.2.1, hstep.2.2]
      · simp
    · have hstep : (stepSlot P i v q m).lst_valid_offset = m.lst_valid_offset ∧
          (stepSlot P i v q m).lst_valid = m.lst_valid ∧
          (stepSlot P i v q m).lst_valid_q = m.lst_valid_q := by
        by_cases hmq : is_missing q = true <;> simp [stepSlot, hmq, hvq]
      rw [ih (i + 1) _ (by rw [hstep.1]; omega) (by omega)]
      rcases hls : lastSat (fun p => validQ p.2) t with _ | r
      · simp [hvq, hstep.2.1, hstep.2.2]
      · simp

/-- The reset section at the top of recalc_block_data_full, as a named
function (definitionally the record update inside recalc_block_data_full). -/
def resetMeta (P : NumTy) (m : RMeta) : RMeta :=
  { m with
    count_non_missing := 0
    count_valid := 0
    sum := 0
    min := P.tmax
    max := P.tmin
    fst_offset := 2 ^ 32 - 1
    lst_offset := 0
    fst := 0
    fst_q := Q_MISSING
    fst_valid_offset := 2 ^ 32 - 1
    lst_valid_offset := 0
    fst_valid := 0
    fst_valid_q := Q_MISSING
    qual_acc_or := 0
    qual_acc_and := 2 ^ 32 - 1 }

theorem recalc_eq (P : NumTy) (m : RMeta) (vals : List Int) (qs : List Nat) :
    recalc_block_data_full P m vals qs
      = (if (recalcLoop P 0 (vals.zip qs) (resetMeta P m)).count_valid = 0
         then { recalcLoop P 0 (vals.zip qs) (resetMeta P m) with min := 0, max := 0 }
         else recalcLoop P 0 (vals.zip qs) (resetMeta P m)) := rfl

theorem recalc_lst_proj (P : NumTy) (m : RMeta) (vals : List Int) (qs : List Nat) :
    (recalc_block_data_full P m vals qs).lst
        = (recalcLoop P 0 (vals.zip qs) (resetMeta P m)).lst ∧
    (recalc_block_data_full P m vals qs).lst_q
        = (recalcLoop P 0 (vals.zip qs) (resetMeta P m)).lst_q ∧
    (recalc_block_data_full P m vals qs).lst_valid
        = (recalcLoop P 0 (vals.zip qs) (resetMeta P m)).lst_valid ∧
    (recalc_block_data_full P m vals qs).lst_valid_q
        = (recalcLoop P 0 (vals.zip qs) (resetMeta P m)).lst_valid_q := by
  rw [recalc_eq]
  split <;> exact ⟨rfl, rfl, rfl, rfl⟩

/-- C4 counterexample: with vals = [0] and qs = [MISSING] (equal length,
non-empty, every slot Missing), two calls of recalc_block_data_full that
start from records differing only in the prior lst field produce different
statistics records even after blanking object_key — so the result is NOT a
function of the two vectors alone. -/
theorem C4_counterexample_lst_not_reset :
    { recalc_block_data_full ⟨0, 100, 0, 1000⟩
        { metaNew ⟨0, 100, 0, 1000⟩ with lst := 5 } [0] [Q_MISSING] with object_key := "" }
      ≠ { recalc_block_data_full ⟨0, 100, 0, 1000⟩
        { metaNew ⟨0, 100, 0, 1000⟩ with lst := 7 } [0] [Q_MISSING] with object_key := "" } := by
  decide

/-- C4 (amended): the reset section of recalc_block_data_full resets every
statistics field except lst, lst_q, lst_valid and lst_valid_q, so all other
fields of the result (object_key aside) are a function of the two vectors
alone; the lst/lst_q pair is such a function as soon as some slot is
non-missing, and the lst_valid/lst_valid_q pair as soon as some slot is
valid.  When every slot is Missing those four fields keep their prior
values. -/
theorem C4_recalc_reset_except_lst (P : NumTy) (m1 m2 : RMeta) (vals : List Int)
    (qs : List Nat) (hsz : vals.length ≤ 2 ^ 32) :
    projStable (recalc_block_data_full P m1 vals qs)
      = projStable (recalc_block_data_full P m2 vals qs) ∧
    ((∃ p ∈ vals.zip qs, is_missing p.2 = false) →
      (recalc_block_data_full P m1 vals qs).lst
          = (recalc_block_data_full P m2 vals qs).lst ∧
      (recalc_block_data_full P m1 vals qs).lst_q
          = (recalc_block_data_full P m2 vals qs).lst_q) ∧
    ((∃ p ∈ vals.zip qs, validQ p.2 = true) →
      (recalc_block_data_full P m1 vals qs).lst_valid
          = (recalc_block_data_full P m2 vals qs).lst_valid ∧
      (recalc_block_data_full P m1 vals qs).lst_valid_q
          = (recalc_block_data_full P m2 vals qs).lst_valid_q) := by
  have hb : 0 + (vals.zip qs).length ≤ 2 ^ 32 := by
    rw [List.length_zip]; omega
  have hreset : projStable (resetMeta P m1) = projStable (resetMeta P m2) := rfl
  have hp : projStable (recalcLoop P 0 (vals.zip qs) (resetMeta P m1))
      = projStable (recalcLoop P 0 (vals.zip qs) (resetMeta P m2)) :=
    recalcLoop_projStable P (vals.zip qs) 0 _ _ hreset
  have hcv : (recalcLoop P 0 (vals.zip qs) (resetMeta P m1)).count_valid
      = (recalcLoop P 0 (vals.zip qs) (resetMeta P m2)).count_valid := by
    have := congrArg RMeta.count_valid hp
    simpa [projStable] using this
  refine ⟨?_, ?_, ?_⟩
  · rw [recalc_eq P m1, recalc_eq P m2, hcv]
    by_cases hc : (recalcLoop P 0 (vals.zip qs) (resetMeta P m2)).count_valid = 0
    · rw [if_pos hc, if_pos hc]
      exact congrArg (fun m => { m with min := (0 : Int), max := (0 : Int) }) hp
    · rw [if_neg hc, if_neg hc]
      exact hp
  · intro hex
    obtain ⟨r0, hr0⟩ := lastSat_isSome (fun p => !is_missing p.2) (vals.zip qs)
      (by obtain ⟨p, hp1, hp2⟩ := hex; exact ⟨p, hp1, by simp [hp2]⟩)
    have h1 := recalcLoop_lst P (vals.zip qs) 0 (resetMeta P m1) (Nat.le_refl 0) hb
    have h2 := recalcLoop_lst P (vals.zip qs) 0 (resetMeta P m2) (Nat.le_refl 0) hb
    rw [hr0] at h1 h2
    have hproj1 := recalc_lst_proj P m1 vals qs
    have hproj2 := recalc_lst_proj P m2 vals qs
    rw [Prod.mk.injEq] at h1 h2
    exact ⟨by rw [hproj1.1, hproj2.1, h1.1, h2.1],
      by rw [hproj1.2.1, hproj2.2.1, h1.2, h2.2]⟩
  · intro hex
    obtain ⟨r0, hr0⟩ := lastSat_isSome (fun p => validQ p.2) (vals.zip qs) hex
    have h1 := recalcLoop_lst_valid P (vals.zip qs) 0 (resetMeta P m1) (Nat.le_refl 0) hb
    have h2 := recalcLoop_lst_valid P (vals.zip qs) 0 (resetMeta P m2) (Nat.le_refl 0) hb
    rw [hr0] at h1 h2
    have hproj1 := recalc_lst_proj P m1 vals qs
    have hproj2 := recalc_lst_proj P m2 vals qs
    rw [Prod.mk.injEq] at h1 h2
    exact ⟨by rw [hproj1.2.2.1, hproj2.2.2.1, h1.1, h2.1],
      by rw [hproj1.2.2.2, hproj2.2.2.2, h1.2, h2.2]⟩

/-- C4 witness: the amended determinism theorem applied to a concrete
one-sample Good block and two different starting records. -/
theorem C4_amended_witness :
    (recalc_block_data_full ⟨0, 100, 0, 1000⟩
        { metaNew ⟨0, 100, 0, 1000⟩ with lst := 5 } [3] [Q_GOOD]).lst
      = (recalc_block_data_full ⟨0, 100, 0, 1000⟩
        { metaNew ⟨0, 100, 0, 1000⟩ with lst := 7 } [3] [Q_GOOD]).lst :=
  ((C4_recalc_reset_except_lst ⟨0, 100, 0, 1000⟩
      { metaNew ⟨0, 100, 0, 1000⟩ with lst := 5 }
      { metaNew ⟨0, 100, 0, 1000⟩ with lst := 7 } [3] [Q_GOOD] (by decide)).2.1
    (by decide)).1

/-! ## WAL entry serialization (vodnik-core wal.rs, WalEntry::write / read)

Sample values of the storable type T are represented by their little-endian
bit patterns: a value is a Nat below 256 ^ w where w = size_of T, and
ByteStorable::write_le_bytes / read_le_bytes are leBytes w / leVal. -/

inductive WalEntryL where
  | write (tx series block : Nat) (ts : List Nat) (vals : List Nat) (qs : List Nat)
  | flush (tx series block : Nat)
  deriving Repr, DecidableEq

def TAG_WRITE : Nat := 1
def TAG_FLUSH : Nat := 2

/-- WalEntry::write: the payload bytes produced through the Cursor
(tag, tx, series, block as u64 LE, count as u32 LE, then the ts / vals / qs
arrays). -/
def walEntryWrite (w : Nat) : WalEntryL → List Nat
  | .write tx series block ts vals qs =>
      TAG_WRITE :: (leBytes 8 tx ++ leBytes 8 series ++ leBytes 8 block
        ++ leBytes 4 ts.length
        ++ ts.flatMap (leBytes 8) ++ vals.flatMap (leBytes w) ++ qs.map (· % 256))
  | .flush tx series block =>
      TAG_FLUSH :: (leBytes 8 tx ++ leBytes 8 series ++ leBytes 8 block)

/-- Cursor reads of n bytes; none models both the short-buffer panic of the
Rust Cursor and — at the call sites below — the read errors of
WalEntry::read. -/
def takeBytes (n : Nat) (l : List Nat) : Option (List Nat × List Nat) :=
  if n ≤ l.length then some (l.take n, l.drop n) else none

/-- cnt successive read_val of w-byte little-endian values. -/
def readChunks (w : Nat) : Nat → List Nat → Option (List Nat × List Nat)
  | 0, l => some ([], l)
  | c + 1, l => do
      let (b, r) ← takeBytes w l
      let (vs, r2) ← readChunks w c r
      some (leVal b :: vs, r2)

/-- WalEntry::read.  Failures (empty payload, zero series id, unknown tag,
short payload) are collapsed into none; the claim only concerns the success
path. -/
def walEntryRead (w : Nat) (bytes : List Nat) : Option WalEntryL :=
  match bytes with
  | [] => none
  | tag :: rest =>
    if tag = TAG_WRITE then do
      let (txb, r1) ← takeBytes 8 rest
      let (srb, r2) ← takeBytes 8 r1
      if leVal srb = 0 then none else do
      let (blb, r3) ← takeBytes 8 r2
      let (cnb, r4) ← takeBytes 4 r3
      let (ts, r5) ← readChunks 8 (leVal cnb) r4
      let (vs, r6) ← readChunks w (leVal cnb) r5
      let (qb, _r7) ← takeBytes (leVal cnb) r6
      some (.write (leVal txb) (leVal srb) (leVal blb) ts vs qb)
    else if tag = TAG_FLUSH then do
      let (txb, r1) ← takeBytes 8 rest
      let (srb, r2) ← takeBytes 8 r1
      if leVal srb = 0 then none else do
      let (blb, _r3) ← takeBytes 8 r2
      some (.flush (leVal txb) (leVal srb) (leVal blb))
    else none

theorem takeBytes_append (a b : List Nat) : takeBytes a.length (a ++ b) = some (a, b) := by
  simp [takeBytes]

theorem takeBytes_leBytes (w n : Nat) (rest : List Nat) :
    takeBytes w (leBytes w n ++ rest) = some (leBytes w n, rest) := by
  have h := takeBytes_append (leBytes w n) rest
  rwa [leBytes_length] at h

theorem readChunks_flatMap (w : Nat) (vs : List Nat) (rest : List Nat)
    (hb : ∀ v ∈ vs, v < 256 ^ w) :
    readChunks w vs.length (vs.flatMap (leBytes w) ++ rest) = some (vs, rest) := by
  induction vs with
  | nil => simp [readChunks]
  | cons v t ih =>
    simp only [List.flatMap_cons, List.length_cons, List.append_assoc]
    rw [readChunks]
    rw [takeBytes_leBytes]
    simp only [Option.bind_eq_bind, Option.some_bind]
    rw [ih fun x hx => hb x (List.mem_cons_of_mem _ hx)]
    simp [leVal_leBytes_of_lt (hb v (List.mem_cons_self _ _))]

theorem map_mod_256_id (qs : List Nat) (h : ∀ q ∈ qs, q < 256) :
    qs.map (· % 256) = qs := by
  induction qs with
  | nil => rfl
  | cons q t ih =>
    simp only [List.map_cons, List.cons.injEq]
    exact ⟨Nat.mod_eq_of_lt (h q (List.mem_cons_self _ _)),
      ih fun x hx => h x (List.mem_cons_of_mem _ hx)⟩

theorem walEntry_roundtrip_write (w tx series block : Nat) (ts vals qs : List Nat)
    (hlen1 : vals.length = ts.length) (hlen2 : qs.length = ts.length)
    (hcnt : ts.length < 2 ^ 32) (htx : tx < 2 ^ 64) (hsr : series < 2 ^ 64)
    (hsr0 : series ≠ 0) (hbl : block < 2 ^ 64)
    (hts : ∀ t ∈ ts, t < 2 ^ 64) (hvs : ∀ v ∈ vals, v < 256 ^ w)
    (hqs : ∀ q ∈ qs, q < 256) :
    walEntryRead w (walEntryWrite w (.write tx series block ts vals qs))
      = some (.write tx series block ts vals qs) := by
  have e64 : (2 : Nat) ^ 64 = 256 ^ 8 := by norm_num
  have e32 : (2 : Nat) ^ 32 = 256 ^ 4 := by norm_num
  have htx' : leVal (leBytes 8 tx) = tx := leVal_leBytes_of_lt (by rw [← e64]; exact htx)
  have hsr' : leVal (leBytes 8 series) = series :=
    leVal_leBytes_of_lt (by rw [← e64]; exact hsr)
  have hbl' : leVal (leBytes 8 block) = block :=
    leVal_leBytes_of_lt (by rw [← e64]; exact hbl)
  have hcn' : leVal (leBytes 4 ts.length) = ts.length :=
    leVal_leBytes_of_lt (by rw [← e32]; exact hcnt)
  have hts' : ∀ t ∈ ts, t < 256 ^ 8 := fun t h => by rw [← e64]; exact hts t h
  simp only [walEntryWrite, walEntryRead, List.append_assoc, if_true]
  rw [takeBytes_leBytes]
  simp only [Option.bind_eq_bind, Option.some_bind]
  rw [takeBytes_leBytes]
  simp only [Option.some_bind]
  rw [hsr', if_neg hsr0]
  rw [takeBytes_leBytes]
  simp only [Option.some_bind]
  rw [takeBytes_leBytes]
  simp only [Option.some_bind]
  rw [hcn']
  rw [readChunks_flatMap 8 ts _ hts']
  simp only [Option.some_bind]
  rw [← hlen1, readChunks_flatMap w vals _ hvs, hlen1]
  simp only [Option.some_bind]
  have hq : takeBytes ts.length (qs.map (· % 256)) = some (qs.map (· % 256), []) := by
    have h := takeBytes_append (qs.map (· % 256)) []
    rwa [List.append_nil, List.length_map, hlen2] at h
  rw [hq]
  simp only [Option.some_bind]
  rw [htx', hbl', map_mod_256_id qs hqs]

/-! ## CRC-32-ISCSI (Castagnoli), as computed by the crc crate for
CRC_32_ISCSI: reflected algorithm with polynomial 0x82F63B78, initial value
0xFFFFFFFF and final xor 0xFFFFFFFF, processing input bytes LSB first. -/

def CRC32C_POLY : Nat := 0x82F63B78

/-- One LSB-first shift step of the reflected CRC register. -/
def stepBit (s : Nat) : Nat := (s >>> 1) ^^^ (if s % 2 = 1 then CRC32C_POLY else 0)

/-- Fold one input byte into the register (xor, then eight shift steps). -/
def crcByte (s b : Nat) : Nat := stepBit^[8] (s ^^^ b)

def crcUpdate (s : Nat) (bs : List Nat) : Nat := bs.foldl crcByte s

/-- crc::Crc::checksum for CRC_32_ISCSI. -/
def crc32c (bs : List Nat) : Nat := crcUpdate 0xFFFFFFFF bs ^^^ 0xFFFFFFFF

theorem shiftRight_one_xor (x y : Nat) : (x ^^^ y) >>> 1 = (x >>> 1) ^^^ (y >>> 1) := by
  apply Nat.eq_of_testBit_eq
  intro i
  simp [Nat.testBit_shiftRight, Nat.testBit_xor]

theorem testBit_zero_of_mod {x : Nat} (h : x % 2 = 0) : x.testBit 0 = false := by
  cases hb : x.testBit 0
  · rfl
  · exfalso
    have h1 := Nat.mod_two_eq_one_iff_testBit_zero.mpr hb
    omega

theorem parity_if (x y : Nat) :
    (if (x ^^^ y) % 2 = 1 then CRC32C_POLY else 0)
      = (if x % 2 = 1 then CRC32C_POLY else 0) ^^^ (if y % 2 = 1 then CRC32C_POLY else 0) := by
  rcases Nat.mod_two_eq_zero_or_one x with hx | hx <;>
    rcases Nat.mod_two_eq_zero_or_one y with hy | hy
  · have hxy : ¬((x ^^^ y) % 2 = 1) := by
      intro hc
      have h1 := Nat.mod_two_eq_one_iff_testBit_zero.mp hc
      rw [Nat.testBit_xor, testBit_zero_of_mod hx, testBit_zero_of_mod hy] at h1
      simp at h1
    rw [if_neg hxy, if_neg (by omega), if_neg (by omega)]
    rfl
  · have hxy : (x ^^^ y) % 2 = 1 := by
      apply Nat.mod_two_eq_one_iff_testBit_zero.mpr
      rw [Nat.testBit_xor, testBit_zero_of_mod hx, Nat.mod_two_eq_one_iff_testBit_zero.mp hy]
      rfl
    rw [if_pos hxy, if_neg (by omega), if_pos hy, Nat.zero_xor]
  · have hxy : (x ^^^ y) % 2 = 1 := by
      apply Nat.mod_two_eq_one_iff_testBit_zero.mpr
      rw [Nat.testBit_xor, testBit_zero_of_mod hy, Nat.mod_two_eq_one_iff_testBit_zero.mp hx]
      rfl
    rw [if_pos hxy, if_pos hx, if_neg (by omega), Nat.xor_zero]
  · have hxy : ¬((x ^^^ y) % 2 = 1) := by
      intro hc
      have h1 := Nat.mod_two_eq_one_iff_testBit_zero.mp hc
      rw [Nat.testBit_xor, Nat.mod_two_eq_one_iff_testBit_zero.mp hx,
        Nat.mod_two_eq_one_iff_testBit_zero.mp hy] at h1
      simp at h1
    rw [if_neg hxy, if_pos hx, if_pos hy, Nat.xor_self]

theorem xor_shuffle (a b c d : Nat) : (a ^^^ b) ^^^ (c ^^^ d) = (a ^^^ c) ^^^ (b ^^^ d) := by
  apply Nat.eq_of_testBit_eq
  intro i
  simp only [Nat.testBit_xor]
  cases a.testBit i <;> cases b.testBit i <;> cases c.testBit i <;> cases d.testBit i <;> rfl

theorem stepBit_xor (x y : Nat) : stepBit (x ^^^ y) = stepBit x ^^^ stepBit y := by
  unfold stepBit
  rw [shiftRight_one_xor, parity_if, xor_shuffle]

theorem iterate_stepBit_xor (n : Nat) :
    ∀ x y : Nat, stepBit^[n] (x ^^^ y) = stepBit^[n] x ^^^ stepBit^[n] y := by
  induction n with
  | zero => intro x y; rfl
  | succ n ih =>
    intro x y
    rw [Function.iterate_succ_apply, Function.iterate_succ_apply,
      Function.iterate_succ_apply, stepBit_xor, ih]

theorem crcByte_xor (s t a b : Nat) :
    crcByte (s ^^^ t) (a ^^^ b) = crcByte s a ^^^ crcByte t b := by
  unfold crcByte
  rw [← iterate_stepBit_xor, xor_shuffle]

theorem xor_fn_eq (a b : Nat) : Nat.xor a b = a ^^^ b := rfl

theorem crcUpdate_zipWith_xor (bs : List Nat) :
    ∀ (es : List Nat), bs.length = es.length → ∀ s t : Nat,
      crcUpdate (s ^^^ t) (List.zipWith Nat.xor bs es)
        = crcUpdate s bs ^^^ crcUpdate t es := by
  induction bs with
  | nil =>
    intro es h s t
    cases es with
    | nil => rfl
    | cons e et => simp at h
  | cons b bt ih =>
    intro es h s t
    cases es with
    | nil => simp at h
    | cons e et =>
      simp only [List.length_cons, Nat.succ.injEq] at h
      simp only [List.zipWith_cons_cons, crcUpdate, List.foldl_cons, xor_fn_eq]
      rw [crcByte_xor]
      exact ih et h (crcByte s b) (crcByte t e)

theorem stepBit_zero : stepBit 0 = 0 := by decide

theorem crcByte_zero : crcByte 0 0 = 0 := by decide

theorem stepBit_lt {s : Nat} (h : s < 2 ^ 32) : stepBit s < 2 ^ 32 := by
  unfold stepBit
  apply Nat.xor_lt_two_pow
  · have hd : s >>> 1 = s / 2 ^ 1 := Nat.shiftRight_eq_div_pow s 1
    omega
  · split
    · norm_num [CRC32C_POLY]
    · norm_num

theorem stepBit_ne_zero {s : Nat} (h0 : s ≠ 0) (h32 : s < 2 ^ 32) : stepBit s ≠ 0 := by
  rcases Nat.mod_two_eq_zero_or_one s with hp | hp
  · have : stepBit s = s >>> 1 := by
      unfold stepBit
      rw [if_neg (by omega), Nat.xor_zero]
    rw [this, Nat.shiftRight_eq_div_pow]
    omega
  · have hb : (stepBit s).testBit 31 = true := by
      unfold stepBit
      rw [if_pos hp, Nat.testBit_xor]
      have hlo : (s >>> 1).testBit 31 = false := by
        apply Nat.testBit_lt_two_pow
        rw [Nat.shiftRight_eq_div_pow]
        omega
      rw [hlo]
      decide
    intro hc
    rw [hc] at hb
    simp at hb

theorem stepBit_iter_invar (n : Nat) :
    ∀ s : Nat, s ≠ 0 → s < 2 ^ 32 → stepBit^[n] s ≠ 0 ∧ stepBit^[n] s < 2 ^ 32 := by
  induction n with
  | zero => intro s h0 h32; exact ⟨h0, h32⟩
  | succ n ih =>
    intro s h0 h32
    rw [Function.iterate_succ_apply]
    exact ih _ (stepBit_ne_zero h0 h32) (stepBit_lt h32)

theorem stepBit_iter_lt (n : Nat) : ∀ s : Nat, s < 2 ^ 32 → stepBit^[n] s < 2 ^ 32 := by
  induction n with
  | zero => intro s h; exact h
  | succ n ih =>
    intro s h
    rw [Function.iterate_succ_apply]
    exact ih _ (stepBit_lt h)

theorem crcByte_lt {s b : Nat} (hs : s < 2 ^ 32) (hb : b < 2 ^ 32) :
    crcByte s b < 2 ^ 32 := by
  unfold crcByte
  exact stepBit_iter_lt 8 _ (Nat.xor_lt_two_pow hs hb)

theorem crcUpdate_lt (bs : List Nat) (hb : ∀ b ∈ bs, b < 256) :
    ∀ s : Nat, s < 2 ^ 32 → crcUpdate s bs < 2 ^ 32 := by
  induction bs with
  | nil => intro s h; exact h
  | cons b t ih =>
    intro s h
    simp only [crcUpdate, List.foldl_cons]
    exact ih (fun x hx => hb x (List.mem_cons_of_mem _ hx)) _
      (crcByte_lt h (by have := hb b (List.mem_cons_self _ _); omega))

theorem crc32c_lt (bs : List Nat) (hb : ∀ b ∈ bs, b < 256) : crc32c bs < 2 ^ 32 := by
  unfold crc32c
  exact Nat.xor_lt_two_pow (crcUpdate_lt bs hb _ (by norm_num)) (by norm_num)

theorem crcUpdate_zero_replicate (k : Nat) : crcUpdate 0 (List.replicate k 0) = 0 := by
  induction k with
  | zero => rfl
  | succ k ih =>
    simp only [List.replicate_succ, crcUpdate, List.foldl_cons, crcByte_zero]
    exact ih

theorem crcUpdate_replicate_zero_invar (k : Nat) :
    ∀ s : Nat, s ≠ 0 → s < 2 ^ 32 → crcUpdate s (List.replicate k 0) ≠ 0 := by
  induction k with
  | zero => intro s h0 _; exact h0
  | succ k ih =>
    intro s h0 h32
    simp only [List.replicate_succ, crcUpdate, List.foldl_cons]
    have hstep : crcByte s 0 ≠ 0 ∧ crcByte s 0 < 2 ^ 32 := by
      unfold crcByte
      rw [Nat.xor_zero]
      exact stepBit_iter_invar 8 s h0 h32
    exact ih _ hstep.1 hstep.2

/-- The byte stream that is zero except for bit j of byte i. -/
def oneHot (n i j : Nat) : List Nat :=
  List.replicate i 0 ++ (1 <<< j) :: List.replicate (n - i - 1) 0

theorem oneHot_length {n i : Nat} (j : Nat) (h : i < n) : (oneHot n i j).length = n := by
  simp [oneHot]
  omega

theorem crcUpdate_oneHot_ne_zero (n i j : Nat) (hi : i < n) (hj : j < 8) :
    crcUpdate 0 (oneHot n i j) ≠ 0 := by
  unfold oneHot
  have hsplit : crcUpdate 0 (List.replicate i 0 ++ (1 <<< j) :: List.replicate (n - i - 1) 0)
      = crcUpdate (crcByte (crcUpdate 0 (List.replicate i 0)) (1 <<< j))
          (List.replicate (n - i - 1) 0) := by
    simp [crcUpdate, List.foldl_append]
  rw [hsplit, crcUpdate_zero_replicate]
  have hpow : (1 : Nat) <<< j = 2 ^ j := by
    rw [Nat.shiftLeft_eq, Nat.one_mul]
  have hb0 : (1 : Nat) <<< j ≠ 0 := by
    rw [hpow]; positivity
  have hb32 : (1 : Nat) <<< j < 2 ^ 32 := by
    rw [hpow]
    calc 2 ^ j ≤ 2 ^ 7 := Nat.pow_le_pow_right (by norm_num) (by omega)
    _ < 2 ^ 32 := by norm_num
  have hstart : crcByte 0 (1 <<< j) ≠ 0 ∧ crcByte 0 (1 <<< j) < 2 ^ 32 := by
    unfold crcByte
    rw [Nat.zero_xor]
    exact stepBit_iter_invar 8 _ hb0 hb32
  exact crcUpdate_replicate_zero_invar _ _ hstart.1 hstart.2

/-- Flip bit j of byte i of a byte list (the corruption of the claim). -/
def flipBit (bs : List Nat) (i j : Nat) : List Nat :=
  bs.set i (bs.getD i 0 ^^^ (1 <<< j))

theorem zipWith_xor_replicate_zero (t : List Nat) :
    List.zipWith Nat.xor t (List.replicate t.length 0) = t := by
  induction t with
  | nil => rfl
  | cons b bt ih => simp [List.replicate_succ, ih, xor_fn_eq]

theorem flipBit_eq_zipWith (bs : List Nat) :
    ∀ i : Nat, i < bs.length → ∀ j : Nat,
      flipBit bs i j = List.zipWith Nat.xor bs (oneHot bs.length i j) := by
  induction bs with
  | nil => intro i hi; simp at hi
  | cons b t ih =>
    intro i hi j
    cases i with
    | zero =>
      have hn : t.length + 1 - 0 - 1 = t.length := by omega
      simp only [flipBit, List.getD_cons_zero, List.set_cons_zero, oneHot, List.length_cons,
        hn, List.replicate_zero, List.nil_append, List.zipWith_cons_cons,
        zipWith_xor_replicate_zero]
      rfl
    | succ i' =>
      have hi' : i' < t.length := by simpa using hi
      have hn : t.length + 1 - (i' + 1) - 1 = t.length - i' - 1 := by omega
      have htail := ih i' hi' j
      simp only [flipBit, List.getD_cons_succ, List.set_cons_succ, oneHot, List.length_cons,
        hn, List.replicate_succ, List.cons_append, List.zipWith_cons_cons, Nat.xor_zero,
        List.cons.injEq, true_and]
      refine ⟨by rw [xor_fn_eq, Nat.xor_zero], ?_⟩
      simpa [flipBit, oneHot] using htail

/-- Flipping one bit of the payload always changes the CRC-32C value
(linearity of the CRC over xor plus a nonzero syndrome for a one-bit error). -/
theorem crc32c_flipBit_ne (bs : List Nat) (i j : Nat) (hi : i < bs.length) (hj : j < 8) :
    crc32c (flipBit bs i j) ≠ crc32c bs := by
  rw [flipBit_eq_zipWith bs i hi j]
  intro h
  unfold crc32c at h
  have hlen : bs.length = (oneHot bs.length i j).length := (oneHot_length j hi).symm
  have hsplit := crcUpdate_zipWith_xor bs (oneHot bs.length i j) hlen 0xFFFFFFFF 0
  rw [Nat.xor_zero] at hsplit
  rw [hsplit] at h
  have h2 : crcUpdate 0xFFFFFFFF bs ^^^ crcUpdate 0 (oneHot bs.length i j)
      = crcUpdate 0xFFFFFFFF bs := Nat.xor_left_injective h
  have h3 : crcUpdate 0 (oneHot bs.length i j) = 0 := by
    calc crcUpdate 0 (oneHot bs.length i j)
        = crcUpdate 0xFFFFFFFF bs
            ^^^ (crcUpdate 0xFFFFFFFF bs ^^^ crcUpdate 0 (oneHot bs.length i j)) :=
          (Nat.xor_cancel_left _ _).symm
      _ = crcUpdate 0xFFFFFFFF bs ^^^ crcUpdate 0xFFFFFFFF bs := by rw [h2]
      _ = 0 := Nat.xor_self _
  exact crcUpdate_oneHot_ne_zero bs.length i j hi hj h3

/-! ## WAL frame iterator (vodnik-core wal.rs, WalFrameIterator::next) -/

inductive WalErrL where
  | ioError
  | serialization
  | checksumMismatch (expected found : Nat)
  | invalidFrameLength (n : Nat)
  deriving Repr, DecidableEq

structure WalFrameL where
  len : Nat
  crc : Nat
  payload : List Nat
  deriving Repr, DecidableEq

/-- One step of WalFrameIterator::next on the remaining byte stream: returns
none at end of stream (also on a partial header, which read_exact turns into
an UnexpectedEof that next maps to None), otherwise the yielded item and the
rest of the stream.  A truncated payload read is an Io error in the source
and is modelled as ioError here. -/
def nextFrame (stream : List Nat) : Option (Except WalErrL WalFrameL × List Nat) :=
  if stream.length < 8 then none
  else
    let len := leVal (stream.take 4)
    let expected := leVal ((stream.drop 4).take 4)
    let rest := stream.drop 8
    if len = 0 ∨ 100 * 1024 * 1024 < len then
      some (.error (.invalidFrameLength len), rest)
    else if rest.length < len then some (.error .ioError, rest.drop len)
    else
      let payload := rest.take len
      let found := crc32c payload
      if found ≠ expected then
        some (.error (.checksumMismatch expected found), rest.drop len)
      else some (.ok ⟨len, found, payload⟩, rest.drop len)

/-- Evaluation of nextFrame on a stream laid out as one frame
(len, stored crc, payload) followed by the rest of the stream. -/
theorem nextFrame_of_layout (p : List Nat) (stored : Nat) (rest : List Nat)
    (hne : p ≠ []) (hlen : p.length ≤ 100 * 1024 * 1024) (hstored : stored < 2 ^ 32) :
    nextFrame (leBytes 4 p.length ++ leBytes 4 stored ++ p ++ rest)
      = (if crc32c p ≠ stored
         then some (.error (.checksumMismatch stored (crc32c p)), rest)
         else some (.ok ⟨p.length, crc32c p, p⟩, rest)) := by
  have e32 : (2 : Nat) ^ 32 = 256 ^ 4 := by norm_num
  have hA : (leBytes 4 p.length).length = 4 := leBytes_length 4 _
  have hB : (leBytes 4 stored).length = 4 := leBytes_length 4 _
  have hpne : p.length ≠ 0 := fun h => hne (List.length_eq_zero.mp h)
  have hstream : leBytes 4 p.length ++ leBytes 4 stored ++ p ++ rest
      = leBytes 4 p.length ++ (leBytes 4 stored ++ (p ++ rest)) := by
    simp [List.append_assoc]
  have hlen4 : leVal (leBytes 4 p.length) = p.length :=
    leVal_leBytes_of_lt (by rw [← e32]; omega)
  have hstored4 : leVal (leBytes 4 stored) = stored :=
    leVal_leBytes_of_lt (by rw [← e32]; exact hstored)
  have htake : (leBytes 4 p.length ++ (leBytes 4 stored ++ (p ++ rest))).take 4
      = leBytes 4 p.length := by
    have h := List.take_left (leBytes 4 p.length) (leBytes 4 stored ++ (p ++ rest))
    rwa [hA] at h
  have hdrop4 : (leBytes 4 p.length ++ (leBytes 4 stored ++ (p ++ rest))).drop 4
      = leBytes 4 stored ++ (p ++ rest) := by
    have h := List.drop_left (leBytes 4 p.length) (leBytes 4 stored ++ (p ++ rest))
    rwa [hA] at h
  have htake2 : (leBytes 4 stored ++ (p ++ rest)).take 4 = leBytes 4 stored := by
    have h := List.take_left (leBytes 4 stored) (p ++ rest)
    rwa [hB] at h
  have hdrop4b : (leBytes 4 stored ++ (p ++ rest)).drop 4 = p ++ rest := by
    have h := List.drop_left (leBytes 4 stored) (p ++ rest)
    rwa [hB] at h
  have hdrop8 : (leBytes 4 p.length ++ (leBytes 4 stored ++ (p ++ rest))).drop 8
      = p ++ rest := by
    have h := List.drop_drop 4 4 (leBytes 4 p.length ++ (leBytes 4 stored ++ (p ++ rest)))
    rw [show (4 : Nat) + 4 = 8 from rfl] at h
    rw [← h, hdrop4, hdrop4b]
  have hlen8 : ¬((leBytes 4 p.length ++ (leBytes 4 stored ++ (p ++ rest))).length < 8) := by
    simp only [List.length_append, hA, hB]
    omega
  have hbody_take : (p ++ rest).take p.length = p := List.take_left p rest
  have hbody_drop : (p ++ rest).drop p.length = rest := List.drop_left p rest
  have hbody_len : ¬((p ++ rest).length < p.length) := by
    rw [List.length_append]; omega
  rw [hstream]
  rw [nextFrame]
  rw [if_neg hlen8]
  simp only [htake, hdrop4, htake2, hdrop8, hlen4, hstored4]
  rw [if_neg (by push_neg; exact ⟨hpne, hlen⟩)]
  rw [if_neg hbody_len]
  simp only [hbody_take, hbody_drop]

/-- C6: (a) serializing any WAL WRITE record with WalEntry::write and parsing
the payload back with WalEntry::read yields an equal record (vector lengths
equal and below 2 ^ 32, ids within u64, nonzero series id, entries within
their machine widths); and (b) for any frame whose stored CRC is the CRC-32C
of its payload, flipping any single bit of the stored payload makes the frame
iterator yield ChecksumMismatch for that frame. -/
theorem C6_wal_roundtrip_and_corruption
    (w tx series block : Nat) (ts vals qs : List Nat)
    (hlen1 : vals.length = ts.length) (hlen2 : qs.length = ts.length)
    (hcnt : ts.length < 2 ^ 32) (htx : tx < 2 ^ 64) (hsr : series < 2 ^ 64)
    (hsr0 : series ≠ 0) (hbl : block < 2 ^ 64)
    (hts : ∀ t ∈ ts, t < 2 ^ 64) (hvs : ∀ v ∈ vals, v < 256 ^ w)
    (hqs : ∀ q ∈ qs, q < 256)
    (payload rest : List Nat) (i j : Nat)
    (hi : i < payload.length) (hj : j < 8)
    (hplen : payload.length ≤ 100 * 1024 * 1024)
    (hpb : ∀ b ∈ payload, b < 256) :
    walEntryRead w (walEntryWrite w (.write tx series block ts vals qs))
        = some (.write tx series block ts vals qs)
    ∧ nextFrame (leBytes 4 payload.length ++ leBytes 4 (crc32c payload)
          ++ flipBit payload i j ++ rest)
        = some (.error (.checksumMismatch (crc32c payload)
            (crc32c (flipBit payload i j))), rest) := by
  constructor
  · exact walEntry_roundtrip_write w tx series block ts vals qs hlen1 hlen2 hcnt htx hsr
      hsr0 hbl hts hvs hqs
  · have hflen : (flipBit payload i j).length = payload.length := by
      simp [flipBit]
    have hfne : flipBit payload i j ≠ [] := by
      intro h
      rw [← List.length_eq_zero, hflen] at h
      omega
    have h := nextFrame_of_layout (flipBit payload i j) (crc32c payload) rest hfne
      (by rw [hflen]; exact hplen) (crc32c_lt payload hpb)
    rw [hflen] at h
    rw [h, if_pos (crc32c_flipBit_ne payload i j hi hj)]

/-- C6 witness: the combined round-trip and corruption theorem at a concrete
WRITE record and a concrete 3-byte frame with bit 0 of byte 1 flipped. -/
theorem C6_witness :
    walEntryRead 4 (walEntryWrite 4 (.write 7 1 0 [5] [9] [192]))
        = some (.write 7 1 0 [5] [9] [192])
    ∧ nextFrame (leBytes 4 ([1, 2, 3] : List Nat).length
          ++ leBytes 4 (crc32c [1, 2, 3]) ++ flipBit [1, 2, 3] 1 0 ++ [])
        = some (.error (.checksumMismatch (crc32c [1, 2, 3])
            (crc32c (flipBit [1, 2, 3] 1 0))), []) :=
  C6_wal_roundtrip_and_corruption 4 7 1 0 [5] [9] [192]
    (by decide) (by decide) (by decide) (by decide) (by decide) (by decide) (by decide)
    (by decide) (by decide) (by decide) [1, 2, 3] [] 1 0
    (by decide) (by decide) (by decide) (by decide)

/-! ## Recovery scan (vodnik-server wal.rs, find_wal_to_recover)

The BTreeMap of unflushed WRITE frames keyed by tx id is modelled as an
association list kept strictly sorted by key; its iteration order (used by
replay) is the list order. -/

def btInsert {F : Type} (k : Nat) (v : F) : List (Nat × F) → List (Nat × F)
  | [] => [(k, v)]
  | (k', v') :: t =>
      if k < k' then (k, v) :: (k', v') :: t
      else if k = k' then (k, v) :: t
      else (k', v') :: btInsert k v t

def btErase {F : Type} (k : Nat) : List (Nat × F) → List (Nat × F)
  | [] => []
  | (k', v') :: t => if k = k' then t else (k', v') :: btErase k t

def btLookup {F : Type} (k : Nat) : List (Nat × F) → Option F
  | [] => none
  | (k', v') :: t => if k = k' then some v' else btLookup k t

/-- WalEntryHeader::peek: partial decode of (tag, tx, series, block); none
models the zero-series Serialization error and the short-payload panic,
neither of which the theorems below exercise. -/
def peekHeader (payload : List Nat) : Option (Nat × Nat × Nat × Nat) :=
  match payload with
  | [] => none
  | tag :: rest => do
      let (txb, r1) ← takeBytes 8 rest
      let (srb, r2) ← takeBytes 8 r1
      if leVal srb = 0 then none else do
      let (blb, _r3) ← takeBytes 8 r2
      some (tag, leVal txb, leVal srb, leVal blb)

inductive RecoverRes where
  | ok (m : List (Nat × WalFrameL))
  | err (e : WalErrL)
  | panicked
  deriving Repr, DecidableEq

/-- The per-file loop of find_wal_to_recover: stream the frames; a frame
error propagates immediately (the source applies the question-mark operator
to each frame result and to the peeked header); a WRITE inserts the frame
under its tx, a FLUSH removes the tx; an unknown tag panics (unreachable in
the source).  fuel is structural-recursion fuel; each frame consumes at
least eight bytes, so fuel larger than the stream length never runs out. -/
def recoverStream (fuel : Nat) (m : List (Nat × WalFrameL)) (stream : List Nat) : RecoverRes :=
  match fuel with
  | 0 => .panicked
  | fuel + 1 =>
    match nextFrame stream with
    | none => .ok m
    | some (.error e, _) => .err e
    | some (.ok f, rest) =>
      match peekHeader f.payload with
      | none => .err .serialization
      | some (tag, tx, _series, _block) =>
        if tag = TAG_WRITE then recoverStream fuel (btInsert tx f m) rest
        else if tag = TAG_FLUSH then recoverStream fuel (btErase tx m) rest
        else .panicked

/-- find_wal_to_recover over the WAL files (each file a byte stream), in
directory iteration order; any error aborts the whole scan. -/
def find_wal_to_recover (m : List (Nat × WalFrameL)) : List (List Nat) → RecoverRes
  | [] => .ok m
  | f :: fs =>
    match recoverStream (f.length + 1) m f with
    | .ok m2 => find_wal_to_recover m2 fs
    | other => other

/-- A well-formed stored frame: length, stored CRC, payload. -/
def mkFrame (p : List Nat) : List Nat := leBytes 4 p.length ++ leBytes 4 (crc32c p) ++ p

theorem mkFrame_append (p R : List Nat) :
    mkFrame p ++ R = leBytes 4 p.length ++ leBytes 4 (crc32c p) ++ p ++ R := by
  simp [mkFrame, List.append_assoc]

/-- A payload a recovery scan can process: non-empty, below the frame size
limit, bytes, and a peekable header with a WRITE or FLUSH tag. -/
def goodPayload (p : List Nat) : Prop :=
  p ≠ [] ∧ p.length ≤ 100 * 1024 * 1024 ∧ (∀ b ∈ p, b < 256) ∧
    ∃ tag tx series block, peekHeader p = some (tag, tx, series, block) ∧
      (tag = TAG_WRITE ∨ tag = TAG_FLUSH)

theorem mkFrame_length (p : List Nat) : (mkFrame p).length = 8 + p.length := by
  simp [mkFrame, leBytes_length]
  omega

theorem recoverStream_aborts (good : List (List Nat)) :
    ∀ (m : List (Nat × WalFrameL)) (fuel : Nat) (bad : List Nat) (stored : Nat)
      (tail : List Nat),
      (∀ p ∈ good, goodPayload p) → bad ≠ [] → bad.length ≤ 100 * 1024 * 1024 →
      stored < 2 ^ 32 → crc32c bad ≠ stored →
      (good.flatMap mkFrame
        ++ (leBytes 4 bad.length ++ leBytes 4 stored ++ bad ++ tail)).length < fuel →
      recoverStream fuel m (good.flatMap mkFrame
          ++ (leBytes 4 bad.length ++ leBytes 4 stored ++ bad ++ tail))
        = .err (.checksumMismatch stored (crc32c bad)) := by
  induction good with
  | nil =>
    intro m fuel bad stored tail _hg hbne hblen hstored hmism hfuel
    simp only [List.flatMap_nil, List.nil_append] at hfuel ⊢
    have hpos : 0 < (leBytes 4 bad.length ++ leBytes 4 stored ++ bad ++ tail).length := by
      simp [leBytes_length]
    cases fuel with
    | zero => omega
    | succ f =>
      rw [recoverStream]
      have hlay := nextFrame_of_layout bad stored tail hbne hblen hstored
      rw [show leBytes 4 bad.length ++ leBytes 4 stored ++ bad ++ tail
          = leBytes 4 bad.length ++ (leBytes 4 stored ++ (bad ++ tail)) by
            simp [List.append_assoc]] at hlay ⊢
      rw [hlay, if_pos hmism]
  | cons p good' ih =>
    intro m fuel bad stored tail hg hbne hblen hstored hmism hfuel
    have hp : goodPayload p := hg p (List.mem_cons_self _ _)
    obtain ⟨hne, hlen, hbytes, tag, tx, series, block, hpeek, htag⟩ := hp
    have hstream : (p :: good').flatMap mkFrame
        ++ (leBytes 4 bad.length ++ leBytes 4 stored ++ bad ++ tail)
        = mkFrame p ++ (good'.flatMap mkFrame
            ++ (leBytes 4 bad.length ++ leBytes 4 stored ++ bad ++ tail)) := by
      simp [List.flatMap_cons, List.append_assoc]
    rw [hstream] at hfuel ⊢
    have hflen : (mkFrame p).length = 8 + p.length := mkFrame_length p
    rw [List.length_append, hflen] at hfuel
    cases fuel with
    | zero => omega
    | succ f =>
      rw [recoverStream]
      have hlay := nextFrame_of_layout p (crc32c p)
        (good'.flatMap mkFrame ++ (leBytes 4 bad.length ++ leBytes 4 stored ++ bad ++ tail))
        hne hlen (crc32c_lt p hbytes)
      rw [if_neg (by simp)] at hlay
      rw [← mkFrame_append] at hlay
      rw [hlay]
      simp only [hpeek]
      rcases htag with h1 | h2
      · rw [h1, if_pos rfl]
        exact ih _ f bad stored tail (fun q hq => hg q (List.mem_cons_of_mem _ hq))
          hbne hblen hstored hmism (by omega)
      · rw [h2]
        rw [if_neg (by simp [TAG_WRITE, TAG_FLUSH]), if_pos rfl]
        exact ih _ f bad stored tail (fun q hq => hg q (List.mem_cons_of_mem _ hq))
          hbne hblen hstored hmism (by omega)

/-- C3 (amended): a WAL frame whose stored CRC does not match its payload
makes find_wal_to_recover return the ChecksumMismatch error; the remaining
frames of the file are NOT processed and no map of unflushed WRITE records
is returned — the error propagates out of the scan (and aborts recovery in
main).  The well-formed frames preceding the corrupt one are processed
normally. -/
theorem C3_crc_mismatch_aborts_scan (good : List (List Nat))
    (hgood : ∀ p ∈ good, goodPayload p)
    (bad : List Nat) (stored : Nat) (tail : List Nat)
    (hbne : bad ≠ []) (hblen : bad.length ≤ 100 * 1024 * 1024)
    (hstored : stored < 2 ^ 32) (hmism : crc32c bad ≠ stored)
    (m : List (Nat × WalFrameL)) :
    find_wal_to_recover m
        [good.flatMap mkFrame ++ (leBytes 4 bad.length ++ leBytes 4 stored ++ bad ++ tail)]
      = .err (.checksumMismatch stored (crc32c bad)) := by
  rw [find_wal_to_recover]
  rw [recoverStream_aborts good m _ bad stored tail hgood hbne hblen hstored hmism
    (by omega)]

set_option maxRecDepth 8000 in
/-- C3 counterexample: a WAL file holding a valid WRITE frame, then a frame
whose stored CRC was corrupted (xor 1), then another valid frame.  The scan
returns the ChecksumMismatch error: it does not log-and-skip, it does not
process the remaining valid frame, and it returns no map of unflushed
records. -/
theorem C3_counterexample_scan_fails :
    find_wal_to_recover []
        [mkFrame (walEntryWrite 4 (.write 1 1 0 [] [] []))
          ++ (leBytes 4 (walEntryWrite 4 (.flush 2 1 0)).length
              ++ leBytes 4 (crc32c (walEntryWrite 4 (.flush 2 1 0)) ^^^ 1)
              ++ walEntryWrite 4 (.flush 2 1 0))
          ++ mkFrame (walEntryWrite 4 (.flush 1 1 0))]
      = .err (.checksumMismatch (crc32c (walEntryWrite 4 (.flush 2 1 0)) ^^^ 1)
          (crc32c (walEntryWrite 4 (.flush 2 1 0)))) := by decide

/-- C3 witness: the abort theorem applied to one corrupt single-byte frame. -/
theorem C3_amended_witness :
    find_wal_to_recover []
        [([] : List (List Nat)).flatMap mkFrame
          ++ (leBytes 4 ([0] : List Nat).length ++ leBytes 4 0 ++ [0] ++ [])]
      = .err (.checksumMismatch 0 (crc32c [0])) :=
  C3_crc_mismatch_aborts_scan [] (by simp) [0] 0 [] (by decide) (by decide) (by decide)
    (by decide) []

/-! ## C9: pairing of WRITE and FLUSH frames and the replay order

scanRecover is the classification loop of find_wal_to_recover lifted to the
sequence of (already decoded) frame headers of all scanned files: a WRITE
inserts the frame under its tx into the BTreeMap model, a FLUSH removes the
tx.  replay then iterates the resulting map in ascending tx order, which is
exactly the order of the sorted association list. -/

inductive WalEv (F : Type) where
  | write (tx : Nat) (f : F)
  | flush (tx : Nat)
  deriving DecidableEq

def scanRecover {F : Type} : List (WalEv F) → List (Nat × F) → List (Nat × F)
  | [], m => m
  | .write tx f :: r, m => scanRecover r (btInsert tx f m)
  | .flush tx :: r, m => scanRecover r (btErase tx m)

def hasFlush {F : Type} (t : Nat) : List (WalEv F) → Bool
  | [] => false
  | .flush tx :: r => tx == t || hasFlush t r
  | .write _ _ :: r => hasFlush t r

/-- The payload of the last WRITE frame with tx id t, if any. -/
def lastWriteOf {F : Type} (t : Nat) : List (WalEv F) → Option F
  | [] => none
  | e :: r =>
    match lastWriteOf t r with
    | some f => some f
    | none =>
      match e with
      | .write tx f => if tx = t then some f else none
      | .flush _ => none

/-- The net effect on tx id t of the last event that touches it:
some (some f) for a WRITE, some none for a FLUSH, none if untouched. -/
def lastEv {F : Type} (t : Nat) : List (WalEv F) → Option (Option F)
  | [] => none
  | e :: r =>
    match lastEv t r with
    | some x => some x
    | none =>
      match e with
      | .write tx f => if tx = t then some (some f) else none
      | .flush tx => if tx = t then some none else none

/-- Every FLUSH appears after every WRITE with the same tx id: no WRITE for
t follows a FLUSH for t. -/
def flushAfterWrites {F : Type} : List (WalEv F) → Prop
  | [] => True
  | WalEv.write _ _ :: r => flushAfterWrites r
  | WalEv.flush t :: r => (∀ f : F, WalEv.write t f ∉ r) ∧ flushAfterWrites r

theorem btLookup_btInsert {F : Type} (k t : Nat) (v : F) (m : List (Nat × F)) :
    btLookup t (btInsert k v m) = if t = k then some v else btLookup t m := by
  induction m with
  | nil => simp [btInsert, btLookup]
  | cons p tl ih =>
    obtain ⟨k', v'⟩ := p
    by_cases h1 : k < k'
    · simp [btInsert, if_pos h1, btLookup]
    · by_cases h2 : k = k'
      · subst h2
        by_cases ht : t = k <;> simp [btInsert, h1, ht, btLookup]
      · by_cases ht : t = k'
        · subst ht
          have hne : t ≠ k := fun h => h2 h.symm
          simp [btInsert, h1, h2, btLookup, hne]
        · simp [btInsert, h1, h2, btLookup, ht, ih]

theorem mem_btInsert {F : Type} {x : Nat × F} (k : Nat) (v : F) (m : List (Nat × F))
    (hx : x ∈ btInsert k v m) : x = (k, v) ∨ x ∈ m := by
  induction m with
  | nil => simpa [btInsert] using hx
  | cons p tl ih =>
    obtain ⟨k', v'⟩ := p
    by_cases h1 : k < k'
    · simp only [btInsert, if_pos h1, List.mem_cons] at hx
      rcases hx with h | h | h
      · exact Or.inl h
      · exact Or.inr (by simp [h])
      · exact Or.inr (List.mem_cons_of_mem _ h)
    · by_cases h2 : k = k'
      · simp only [btInsert, if_neg h1, if_pos h2, List.mem_cons] at hx
        rcases hx with h | h
        · exact Or.inl h
        · exact Or.inr (List.mem_cons_of_mem _ h)
      · simp only [btInsert, if_neg h1, if_neg h2, List.mem_cons] at hx
        rcases hx with h | h
        · exact Or.inr (by simp [h])
        · rcases ih h with h' | h'
          · exact Or.inl h'
          · exact Or.inr (List.mem_cons_of_mem _ h')

theorem btInsert_pairwise {F : Type} (k : Nat) (v : F) (m : List (Nat × F))
    (h : List.Pairwise (fun a b : Nat × F => a.1 < b.1) m) :
    List.Pairwise (fun a b : Nat × F => a.1 < b.1) (btInsert k v m) := by
  induction m with
  | nil => simp [btInsert]
  | cons p tl ih =>
    obtain ⟨k', v'⟩ := p
    rw [List.pairwise_cons] at h
    by_cases h1 : k < k'
    · simp only [btInsert, if_pos h1]
      rw [List.pairwise_cons]
      refine ⟨?_, by rw [List.pairwise_cons]; exact h⟩
      intro x hx
      rcases List.mem_cons.mp hx with hh | hh
      · simp [hh]; omega
      · have := h.1 x hh
        simp at this ⊢
        omega
    · by_cases h2 : k = k'
      · subst h2
        have hb : btInsert k v ((k, v') :: tl) = (k, v) :: tl := by
          simp [btInsert, h1]
        rw [hb, List.pairwise_cons]
        exact ⟨h.1, h.2⟩
      · simp only [btInsert, if_neg h1, if_neg h2]
        rw [List.pairwise_cons]
        refine ⟨?_, ih h.2⟩
        intro x hx
        rcases mem_btInsert k v tl hx with hh | hh
        · simp [hh]; omega
        · exact h.1 x hh

theorem btErase_sublist {F : Type} (k : Nat) (m : List (Nat × F)) :
    List.Sublist (btErase k m) m := by
  induction m with
  | nil => simp [btErase]
  | cons p tl ih =>
    obtain ⟨k', v'⟩ := p
    by_cases h : k = k'
    · simp only [btErase, if_pos h]
      exact List.sublist_cons_self _ _
    · simp only [btErase, if_neg h]
      exact List.Sublist.cons₂ _ ih

theorem btErase_pairwise {F : Type} (k : Nat) (m : List (Nat × F))
    (h : List.Pairwise (fun a b : Nat × F => a.1 < b.1) m) :
    List.Pairwise (fun a b : Nat × F => a.1 < b.1) (btErase k m) :=
  List.Pairwise.sublist (btErase_sublist k m) h

theorem btLookup_none_of_lt {F : Type} (t : Nat) (m : List (Nat × F))
    (h : ∀ x ∈ m, t < x.1) : btLookup t m = none := by
  induction m with
  | nil => rfl
  | cons p tl ih =>
    obtain ⟨k', v'⟩ := p
    have h1 := h (k', v') (List.mem_cons_self _ _)
    simp only [btLookup]
    rw [if_neg (by simp at h1 ⊢; omega)]
    exact ih fun x hx => h x (List.mem_cons_of_mem _ hx)

theorem btLookup_btErase {F : Type} (k t : Nat) (m : List (Nat × F))
    (h : List.Pairwise (fun a b : Nat × F => a.1 < b.1) m) :
    btLookup t (btErase k m) = if t = k then none else btLookup t m := by
  induction m with
  | nil => simp [btErase, btLookup]
  | cons p tl ih =>
    obtain ⟨k', v'⟩ := p
    rw [List.pairwise_cons] at h
    by_cases h2 : k = k'
    · subst h2
      have he : btErase k ((k, v') :: tl) = tl := by simp [btErase]
      rw [he]
      by_cases ht : t = k
      · subst ht
        rw [if_pos rfl]
        exact btLookup_none_of_lt t tl h.1
      · rw [if_neg ht]
        simp [btLookup, ht]
    · have he : btErase k ((k', v') :: tl) = (k', v') :: btErase k tl := by
        simp [btErase, h2]
      rw [he]
      by_cases ht : t = k'
      · subst ht
        have hne : t ≠ k := fun hh => h2 hh.symm
        simp [btLookup, hne]
      · simp [btLookup, ht, ih h.2]

theorem scanRecover_pairwise {F : Type} (evs : List (WalEv F)) :
    ∀ m : List (Nat × F), List.Pairwise (fun a b : Nat × F => a.1 < b.1) m →
      List.Pairwise (fun a b : Nat × F => a.1 < b.1) (scanRecover evs m) := by
  induction evs with
  | nil => intro m h; exact h
  | cons e r ih =>
    intro m h
    cases e with
    | write tx f => exact ih _ (btInsert_pairwise tx f m h)
    | flush tx => exact ih _ (btErase_pairwise tx m h)

theorem scanRecover_lookup {F : Type} (t : Nat) (evs : List (WalEv F)) :
    ∀ m : List (Nat × F), List.Pairwise (fun a b : Nat × F => a.1 < b.1) m →
      btLookup t (scanRecover evs m)
        = (match lastEv t evs with
            | some x => x
            | none => btLookup t m) := by
  induction evs with
  | nil => intro m _; rfl
  | cons e r ih =>
    intro m hm
    cases e with
    | write tx f =>
      rw [scanRecover, ih _ (btInsert_pairwise tx f m hm)]
      rcases hle : lastEv t r with _ | x
      · simp only [lastEv, hle]
        rw [btLookup_btInsert]
        by_cases ht : tx = t
        · subst ht; simp
        · rw [if_neg ht, if_neg (fun hh => ht hh.symm)]
      · simp [lastEv, hle]
    | flush tx =>
      rw [scanRecover, ih _ (btErase_pairwise tx m hm)]
      rcases hle : lastEv t r with _ | x
      · simp only [lastEv, hle]
        rw [btLookup_btErase _ _ _ hm]
        by_cases ht : tx = t
        · subst ht; simp
        · rw [if_neg ht, if_neg (fun hh => ht hh.symm)]
      · simp [lastEv, hle]

theorem lastWriteOf_none_of_not_mem {F : Type} (t : Nat) (l : List (WalEv F))
    (h : ∀ f : F, WalEv.write t f ∉ l) : lastWriteOf t l = none := by
  induction l with
  | nil => rfl
  | cons e r ih =>
    have hr : ∀ f : F, WalEv.write t f ∉ r :=
      fun f hf => h f (List.mem_cons_of_mem _ hf)
    cases e with
    | write tx f =>
      have htx : tx ≠ t := by
        intro hh
        subst hh
        exact h f (List.mem_cons_self _ _)
      simp [lastWriteOf, ih hr, htx]
    | flush tx => simp [lastWriteOf, ih hr]

theorem lastEv_char {F : Type} (t : Nat) (evs : List (WalEv F))
    (h : flushAfterWrites evs) :
    lastEv t evs
      = (if hasFlush t evs = true then some none else (lastWriteOf t evs).map some) := by
  induction evs with
  | nil => rfl
  | cons e r ih =>
    cases e with
    | write tx f =>
      have hr := ih h
      by_cases hf : hasFlush t r = true
      · simp [lastEv, hasFlush, hr, hf]
      · rcases hw : lastWriteOf t r with _ | g
        · by_cases ht : tx = t <;>
            simp [lastEv, hasFlush, lastWriteOf, hr, hf, hw, ht]
        · simp [lastEv, hasFlush, lastWriteOf, hr, hf, hw]
    | flush tx =>
      obtain ⟨hnw, hrec⟩ := h
      have hr := ih hrec
      by_cases ht : tx = t
      · subst ht
        by_cases hf : hasFlush tx r = true
        · simp [lastEv, hasFlush, lastWriteOf, hr, hf]
        · simp [lastEv, hasFlush, lastWriteOf, hr, hf,
            lastWriteOf_none_of_not_mem tx r hnw]
      · by_cases hf : hasFlush t r = true
        · simp [lastEv, hasFlush, lastWriteOf, hr, hf, ht]
        · rcases hw : lastWriteOf t r with _ | g <;>
            simp [lastEv, hasFlush, lastWriteOf, hr, hf, hw, ht]

/-- C9: for any sequence of WAL frame events in which each FLUSH for a tx
appears after every WRITE with that tx, the recovery scan produces the map
holding exactly the last WRITE frame of every tx that has no FLUSH — a tx
with both WRITE and FLUSH is never replayed — and replay walks that map in
strictly ascending tx order (so of several surviving WRITEs for one
series/block the one with the highest tx is applied last). -/
theorem C9_recovery_pairing_and_order {F : Type} (evs : List (WalEv F))
    (h : flushAfterWrites evs) :
    List.Pairwise (fun a b : Nat × F => a.1 < b.1) (scanRecover evs []) ∧
    ∀ t : Nat, btLookup t (scanRecover evs [])
      = (if hasFlush t evs = true then none else lastWriteOf t evs) := by
  constructor
  · exact scanRecover_pairwise evs [] (by simp)
  · intro t
    rw [scanRecover_lookup t evs [] (by simp), lastEv_char t evs h]
    by_cases hf : hasFlush t evs = true
    · rw [if_pos hf, if_pos hf]
    · rw [if_neg hf, if_neg hf]
      rcases hw : lastWriteOf t evs with _ | g <;> simp [btLookup]

/-- C9 witness: two WRITEs and one FLUSH; tx 1 is elided, tx 2 survives with
its last WRITE frame. -/
theorem C9_witness :
    btLookup 2 (scanRecover
        [WalEv.write 1 "a", WalEv.write 2 "b", WalEv.flush 1] ([] : List (Nat × String)))
      = (if hasFlush 2 [WalEv.write 1 "a", WalEv.write 2 "b", WalEv.flush 1] = true
         then none
         else lastWriteOf 2 [WalEv.write 1 "a", WalEv.write 2 "b", WalEv.flush 1]) :=
  (C9_recovery_pairing_and_order
    [WalEv.write 1 "a", WalEv.write 2 "b", WalEv.flush 1] (by simp [flushAfterWrites])).2 2

/-! ## Hot set (vodnik-server hot.rs) and cold path (persistence.rs)

One storable sample type is modelled (values in Int with bounds from NumTy,
Default::default() = 0); the per-series state, rotation and backfill logic
are type-uniform in the source. -/

structure SeriesM where
  id : Nat
  block_length : Nat
  block_resolution : Nat
  sample_length : Nat
  sample_resolution : Nat
  deriving Repr, DecidableEq

/-- helpers::get_block_start_as_offset -/
def get_block_start_as_offset (s : SeriesM) (block_id : Nat) : Nat :=
  s.block_resolution * block_id * s.block_length

/-- helpers::get_block_id -/
def get_block_id (s : SeriesM) (unix_ms : Nat) : Nat :=
  unix_ms / (s.block_length * s.block_resolution)

/-- helpers::get_sample_offset -/
def get_sample_offset (s : SeriesM) (delta_from_block_start : Nat) : Nat :=
  delta_from_block_start / (s.sample_length * s.sample_resolution)

/-- helpers::get_block_length (the block capacity in samples) -/
def get_block_length (s : SeriesM) : Nat :=
  (s.block_length * s.block_resolution) / (s.sample_length * s.sample_resolution)

structure SBlock where
  meta : RMeta
  vals : List Int
  qs : List Nat
  deriving Repr, DecidableEq

/-- BlockWritable::new_sized_block: fresh statistics, values all
Default::default() (zero), qualities all MISSING. -/
def new_sized_block (P : NumTy) (len : Nat) : SBlock :=
  ⟨metaNew P, List.replicate len 0, List.replicate len Q_MISSING⟩

/-- WriteBatch (hot.rs version, which carries the tx id). -/
structure WBatch where
  series : SeriesM
  block_id : Nat
  ts : List Nat
  vals : List Int
  qs : List Nat
  tx : Nat
  deriving Repr, DecidableEq

/-- The offset-write loop of BlockWritable::write_to_block.  Nat subtraction
t - bl_start coincides with the u64 subtraction for in-block timestamps
(t at or after the block start); the theorems quantify over that domain. -/
def writeOffsets (s : SeriesM) (bl_start : Nat) :
    List (Nat × Int × Nat) → List Int × List Nat → List Int × List Nat
  | [], arrs => arrs
  | (t, v, q) :: rest, (vs, qs) =>
      let idx := get_sample_offset s (t - bl_start)
      writeOffsets s bl_start rest (vs.set idx v, qs.set idx q)

/-- BlockWritable::write_to_block: write each sample at its offset, then do
the full statistics recompute. -/
def write_to_block (P : NumTy) (b : SBlock) (batch : WBatch) : SBlock :=
  let bl_start := get_block_start_as_offset batch.series batch.block_id
  let arrs := writeOffsets batch.series bl_start
    (batch.ts.zip (batch.vals.zip batch.qs)) (b.vals, b.qs)
  { meta := recalc_block_data_full P b.meta arrs.1 arrs.2, vals := arrs.1, qs := arrs.2 }

/-- Association-list upsert with HashMap semantics (the new binding replaces
any existing binding of the key). -/
def ainsert {α β : Type} [DecidableEq α] (k : α) (v : β) (m : List (α × β)) : List (α × β) :=
  (k, v) :: m.filter fun e => decide (e.1 ≠ k)

def alookup {α β : Type} [DecidableEq α] (k : α) : List (α × β) → Option β
  | [] => none
  | (k', v) :: t => if k = k' then some v else alookup k t

def countKey {α β : Type} [DecidableEq α] (k : α) (m : List (α × β)) : Nat :=
  (m.filter fun e => decide (e.1 = k)).length

theorem alookup_ainsert {α β : Type} [DecidableEq α] (k : α) (v : β) (m : List (α × β)) :
    alookup k (ainsert k v m) = some v := by
  simp [ainsert, alookup]

theorem countKey_ainsert {α β : Type} [DecidableEq α] (k : α) (v : β) (m : List (α × β)) :
    countKey k (ainsert k v m) = 1 := by
  simp only [ainsert, countKey, List.filter_cons]
  rw [if_pos (by simp)]
  simp only [List.length_cons, Nat.succ.injEq]
  induction m with
  | nil => rfl
  | cons e t ih =>
    by_cases h : e.1 = k
    · simp [List.filter_cons, h, ih]
    · simp [List.filter_cons, h, ih]

structure HotData where
  live : Option (Nat × SBlock)
  flushing : List (Nat × (Nat × SBlock))
  live_id : Option Nat
  deriving Repr, DecidableEq

inductive WriteResult where
  | ok (live : Nat) (flushing : List Nat)
  | busy
  | needsColdStore
  deriving Repr, DecidableEq

/-- HotData::flush_live: move the live block into the flushing map keyed by
the live block number; none models the unwrap panics when live or live_id is
absent. -/
def flush_live (hd : HotData) : Option HotData :=
  match hd.live, hd.live_id with
  | some lv, some lid =>
      some { live := none, flushing := ainsert lid lv hd.flushing, live_id := hd.live_id }
  | _, _ => none

/-- The tail of HotData::write_into_block after the branch: write the batch
into the chosen block, raise tx_high, restore the block as live, and return
Ok with the live block number and the flushing keys. -/
def finishWrite (P : NumTy) (hd : HotData) (b : WBatch) (tx : Nat) (current : SBlock) :
    WriteResult × HotData :=
  let current2 := write_to_block P current b
  let tx2 := max b.tx tx
  let hd2 := { hd with live := some (tx2, current2), live_id := some b.block_id }
  (.ok b.block_id (hd2.flushing.map Prod.fst), hd2)

/-- HotData::write_into_block; none models the expect/unwrap panics (live
present but live_id absent), which no reachable state produces. -/
def write_into_block (P : NumTy) (hd : HotData) (b : WBatch) :
    Option (WriteResult × HotData) :=
  match hd.live with
  | some lv =>
    match hd.live_id with
    | none => none
    | some live_block =>
      if live_block < b.block_id then
        match flush_live hd with
        | none => none
        | some hd1 =>
          let len := get_block_length b.series
          some (finishWrite P { hd1 with live_id := some b.block_id } b b.tx
            (new_sized_block P len))
      else if b.block_id < live_block then
        some (.needsColdStore, hd)
      else
        some (finishWrite P { hd with live := none } b lv.1 lv.2)
  | none =>
      let len := get_block_length b.series
      some (finishWrite P { hd with live_id := some b.block_id } b b.tx
        (new_sized_block P len))

/-- C7: when the live block number N is older than the write's target block
M, write_into_block moves the live block into flushing under key N (exactly
once), allocates a fresh live block of length capacity with all values
Default::default() and all qualities MISSING, writes the batch into it, sets
the live block number to M, and records a tx_high for the new live block at
least the batch tx (the only write applied to it). -/
theorem C7_hot_rotation (P : NumTy) (hd : HotData) (b : WBatch) (lv : Nat × SBlock)
    (N : Nat) (hlive : hd.live = some lv) (hlid : hd.live_id = some N)
    (hN : N < b.block_id) :
    write_into_block P hd b
      = some (.ok b.block_id ((ainsert N lv hd.flushing).map Prod.fst),
          { live := some (max b.tx b.tx,
              write_to_block P (new_sized_block P (get_block_length b.series)) b),
            flushing := ainsert N lv hd.flushing,
            live_id := some b.block_id })
    ∧ alookup N (ainsert N lv hd.flushing) = some lv
    ∧ countKey N (ainsert N lv hd.flushing) = 1
    ∧ (new_sized_block P (get_block_length b.series)).vals
        = List.replicate (get_block_length b.series) 0
    ∧ (new_sized_block P (get_block_length b.series)).qs
        = List.replicate (get_block_length b.series) Q_MISSING
    ∧ b.tx ≤ max b.tx b.tx := by
  obtain ⟨live, flushing, live_id⟩ := hd
  simp only at hlive hlid
  subst hlive hlid
  refine ⟨?_, alookup_ainsert N lv flushing, countKey_ainsert N lv flushing, rfl, rfl,
    Nat.le_max_left _ _⟩
  simp [write_into_block, flush_live, if_pos hN, finishWrite]

/-- C7 witness: rotation at a concrete state (live block 0, write into
block 1, capacity 2). -/
theorem C7_witness :
    write_into_block ⟨0, 100, 0, 1000⟩
        ⟨some (3, new_sized_block ⟨0, 100, 0, 1000⟩ 2), [], some 0⟩
        ⟨⟨1, 2, 1000, 1, 1000⟩, 1, [2000], [7], [Q_GOOD], 4⟩
      = some (.ok 1 ((ainsert 0 (3, new_sized_block ⟨0, 100, 0, 1000⟩ 2)
            ([] : List (Nat × (Nat × SBlock)))).map Prod.fst),
          { live := some (max 4 4,
              write_to_block ⟨0, 100, 0, 1000⟩
                (new_sized_block ⟨0, 100, 0, 1000⟩
                  (get_block_length ⟨1, 2, 1000, 1, 1000⟩))
                ⟨⟨1, 2, 1000, 1, 1000⟩, 1, [2000], [7], [Q_GOOD], 4⟩),
            flushing := ainsert 0 (3, new_sized_block ⟨0, 100, 0, 1000⟩ 2) [],
            live_id := some 1 }) :=
  (C7_hot_rotation ⟨0, 100, 0, 1000⟩
    ⟨some (3, new_sized_block ⟨0, 100, 0, 1000⟩ 2), [], some 0⟩
    ⟨⟨1, 2, 1000, 1, 1000⟩, 1, [2000], [7], [Q_GOOD], 4⟩
    (3, new_sized_block ⟨0, 100, 0, 1000⟩ 2) 0 rfl rfl (by decide)).1

/-! ## Cold path state (object store + block-meta catalog)

The object store and the catalog are external collaborators; they are
modelled as maps inside a ColdSt record, and the blocking IO as explicit
state passing.  Object bytes (the rkyv encoding, which round-trips) are
modelled by storing the block value itself.  Ulid::new is modelled by a
monotonically increasing token, which is what makes keys unique. -/

structure ObjKey where
  pref : Nat
  series : Nat
  block : Nat
  token : Nat
  deriving Repr, DecidableEq

/-- The key schema data/{series_id mod 100}/{series_id}/{block_id}_{ulid}.blk
of persistence.rs flush_block. -/
def object_key_string (k : ObjKey) : String :=
  s!"data/{k.pref}/{k.series}/{k.block}_{k.token}.blk"

structure ColdSt where
  store : List (ObjKey × SBlock)
  catalog : List ((Nat × Nat) × ObjKey)
  next_token : Nat
  deriving Repr, DecidableEq

inductive ApiErrL where
  | notFound
  | internal
  deriving Repr, DecidableEq

/-- persistence.rs flush_block: serialize the block, write it to the object
store under a fresh key data/{sid mod 100}/{sid}/{bid}_{ulid}.blk, and
upsert the catalog row for (series, block) with that key (the row also
carries the statistics columns; their value mapping is modelled with C10). -/
def flush_block (st : ColdSt) (series_id block_id : Nat) (block : SBlock) :
    ColdSt × ObjKey :=
  let key : ObjKey := ⟨series_id % 100, series_id, block_id, st.next_token⟩
  ({ store := ainsert key block st.store,
     catalog := ainsert (series_id, block_id) key st.catalog,
     next_token := st.next_token + 1 }, key)

/-- persistence.rs read_block_from_storage: get_object_key from the catalog
(NotFound when absent), read and decode the object, then set the meta's
object_key to the key used. -/
def read_block_from_storage (st : ColdSt) (series_id block_id : Nat) :
    Except ApiErrL SBlock :=
  match alookup (series_id, block_id) st.catalog with
  | none => .error .notFound
  | some key =>
    match alookup key st.store with
    | none => .error .internal
    | some b => .ok { b with meta := { b.meta with object_key := object_key_string key } }

/-- persistence.rs write_cold: read the current block (a fresh all-MISSING
block of the series capacity when the catalog has no row), write the
partition at its offsets and recompute the statistics, then flush_block. -/
def write_cold (P : NumTy) (st : ColdSt) (series : SeriesM) (block : Nat)
    (ts : List Nat) (qs : List Nat) (vals : List Int) : Except ApiErrL (ColdSt × ObjKey) :=
  match read_block_from_storage st series.id block with
  | .ok b => .ok (flush_block st series.id block
      (write_to_block P b ⟨series, block, ts, vals, qs, 0⟩))
  | .error .notFound =>
      let len := get_block_length series
      .ok (flush_block st series.id block
        (write_to_block P (new_sized_block P len) ⟨series, block, ts, vals, qs, 0⟩))
  | .error e => .error e

theorem alookup_none_of_token_lt (p s b tok : Nat) (store : List (ObjKey × SBlock)) :
    (∀ e ∈ store, e.1.token < tok) →
      alookup (⟨p, s, b, tok⟩ : ObjKey) store = none := by
  induction store with
  | nil => intro _; rfl
  | cons e t ih =>
    intro hfresh
    obtain ⟨k, blk⟩ := e
    have hk := hfresh (k, blk) (List.mem_cons_self _ _)
    simp only [alookup]
    rw [if_neg]
    · exact ih fun x hx => hfresh x (List.mem_cons_of_mem _ hx)
    · intro hc
      rw [← hc] at hk
      simp at hk

/-- C8: a write whose target block is older than the live block returns
NeedsColdStore with the hot state unchanged; the cold path then reads the
block named by the catalog (a fresh all-MISSING block of the series capacity
when the catalog returns NotFound), writes the samples at their offsets and
recomputes the statistics (write_to_block), stores the result under a new
unique object key, and upserts the catalog with that key. -/
theorem C8_backfill_and_cold_path (P : NumTy) (hd : HotData) (b : WBatch)
    (lv : Nat × SBlock) (N : Nat) (st : ColdSt) (series : SeriesM) (block : Nat)
    (ts qs2 : List Nat) (vals2 : List Int)
    (hlive : hd.live = some lv) (hlid : hd.live_id = some N) (hN : b.block_id < N)
    (hfresh : ∀ e ∈ st.store, e.1.token < st.next_token) :
    write_into_block P hd b = some (.needsColdStore, hd)
    ∧ alookup (⟨series.id % 100, series.id, block, st.next_token⟩ : ObjKey) st.store = none
    ∧ (alookup (series.id, block) st.catalog = none →
        write_cold P st series block ts qs2 vals2
          = .ok (flush_block st series.id block
              (write_to_block P (new_sized_block P (get_block_length series))
                ⟨series, block, ts, vals2, qs2, 0⟩)))
    ∧ (∀ (key : ObjKey) (b0 : SBlock),
        alookup (series.id, block) st.catalog = some key →
        alookup key st.store = some b0 →
        write_cold P st series block ts qs2 vals2
          = .ok (flush_block st series.id block
              (write_to_block P
                { b0 with meta := { b0.meta with object_key := object_key_string key } }
                ⟨series, block, ts, vals2, qs2, 0⟩)))
    ∧ (∀ blk : SBlock,
        (flush_block st series.id block blk).2
            = (⟨series.id % 100, series.id, block, st.next_token⟩ : ObjKey)
        ∧ alookup (flush_block st series.id block blk).2
            (flush_block st series.id block blk).1.store = some blk
        ∧ alookup (series.id, block) (flush_block st series.id block blk).1.catalog
            = some (flush_block st series.id block blk).2) := by
  refine ⟨?_, alookup_none_of_token_lt _ _ _ _ _ hfresh, ?_, ?_, ?_⟩
  · obtain ⟨live, flushing, live_id⟩ := hd
    simp only at hlive hlid
    subst hlive hlid
    have hnlt : ¬(N < b.block_id) := by omega
    simp [write_into_block, if_neg hnlt, if_pos hN]
  · intro hmiss
    simp [write_cold, read_block_from_storage, hmiss]
  · intro key b0 hkey hstore
    simp [write_cold, read_block_from_storage, hkey, hstore]
  · intro blk
    exact ⟨rfl, alookup_ainsert _ _ _, alookup_ainsert _ _ _⟩

/-- C8 witness: backfill routing and a cold write against an empty catalog
at a concrete state. -/
theorem C8_witness :
    write_cold ⟨0, 100, 0, 1000⟩ ⟨[], [], 0⟩ ⟨1, 2, 1000, 1, 1000⟩ 0 [0] [Q_GOOD] [9]
      = .ok (flush_block ⟨[], [], 0⟩ 1 0
          (write_to_block ⟨0, 100, 0, 1000⟩
            (new_sized_block ⟨0, 100, 0, 1000⟩ (get_block_length ⟨1, 2, 1000, 1, 1000⟩))
            ⟨⟨1, 2, 1000, 1, 1000⟩, 0, [0], [9], [Q_GOOD], 0⟩)) :=
  (C8_backfill_and_cold_path ⟨0, 100, 0, 1000⟩
    ⟨some (3, new_sized_block ⟨0, 100, 0, 1000⟩ 2), [], some 5⟩
    ⟨⟨1, 2, 1000, 1, 1000⟩, 1, [2000], [7], [Q_GOOD], 4⟩
    (3, new_sized_block ⟨0, 100, 0, 1000⟩ 2) 5 ⟨[], [], 0⟩ ⟨1, 2, 1000, 1, 1000⟩ 0
    [0] [Q_GOOD] [9] rfl rfl (by decide) (by simp)).2.2.1 rfl

/-! ## C1: the ingest coordinator's per-partition ordering

Modelled from the spec: the current write_chunk of the ingest coordinator —
the version that appends the WAL WRITE record — is not in the source tree;
only its caller (wal.rs replay invokes write_chunk with a batch and a
replay flag) and a stale pre-WAL ingest.rs are present.  Following spec
§4.7: per partition, allocate a tx id, construct a WRITE record and append
it to the WAL (the append returns only after fsync; failure aborts with
nothing observable), then call the hot set, retrying Busy up to
MAX_RETRIES = 3 and falling back to the cold path on NeedsColdStore;
success is returned only after every partition is hot-applied or
cold-persisted.  The trace collects the observable effects in order; the
acknowledgement is the Except.ok result itself. -/

structure Partn where
  tx : Nat
  sid : Nat
  bid : Nat
  ts : List Nat
  vals : List Int
  qs : List Nat
  deriving Repr, DecidableEq

inductive CEv where
  | walWrite (p : Partn)
  | hotApply (p : Partn)
  | coldWrite (p : Partn)
  deriving Repr, DecidableEq

inductive HotRes where
  | ok
  | busy
  | needsCold
  deriving Repr, DecidableEq

inductive CErr where
  | walIo
  | busyExhausted
  deriving Repr, DecidableEq

/-- The Busy retry loop: resp gives the hot set's answer per attempt, the
fuel is the remaining attempts (MAX_RETRIES bounds the attempt counter). -/
def hotAttempts (resp : Nat → HotRes) (p : Partn) : Nat → Nat → Except CErr (List CEv)
  | _, 0 => .error .busyExhausted
  | attempt, fuel + 1 =>
    match resp attempt with
    | .ok => .ok [CEv.hotApply p]
    | .needsCold => .ok [CEv.coldWrite p]
    | .busy =>
        if 3 ≤ attempt + 1 then .error .busyExhausted
        else hotAttempts resp p (attempt + 1) fuel

/-- Modelled from the spec: one partition of write_chunk — WAL append
(fsynced) first, then the hot attempts. -/
def write_chunk_model (walOk : Bool) (resp : Nat → HotRes) (p : Partn) :
    Except CErr (List CEv) :=
  if walOk = false then .error .walIo
  else
    match hotAttempts resp p 0 3 with
    | .error e => .error e
    | .ok evs => .ok (CEv.walWrite p :: evs)

/-- Modelled from the spec: batch_ingest over the block partitions, in
order; the first failing partition aborts the batch. -/
def batch_ingest_model (walOk : Partn → Bool) (resp : Partn → Nat → HotRes) :
    List Partn → Except CErr (List CEv)
  | [] => .ok []
  | p :: rest =>
    match write_chunk_model (walOk p) (resp p) p with
    | .error e => .error e
    | .ok t =>
      match batch_ingest_model walOk resp rest with
      | .error e => .error e
      | .ok t2 => .ok (t ++ t2)

theorem hotAttempts_shape (resp : Nat → HotRes) (p : Partn) :
    ∀ (fuel attempt : Nat) (evs : List CEv),
      hotAttempts resp p attempt fuel = .ok evs →
      evs = [CEv.hotApply p] ∨ evs = [CEv.coldWrite p] := by
  intro fuel
  induction fuel with
  | zero =>
    intro attempt evs h
    simp [hotAttempts] at h
  | succ f ih =>
    intro attempt evs h
    rcases hr : resp attempt with _ | _ | _ <;> simp [hotAttempts, hr] at h
    · exact Or.inl h.symm
    · by_cases hat : 2 ≤ attempt
      · rw [if_pos hat] at h
        simp at h
      · rw [if_neg hat] at h
        exact ih (attempt + 1) evs h
    · exact Or.inr h.symm

theorem write_chunk_model_shape (walOk : Bool) (resp : Nat → HotRes) (p : Partn)
    (t : List CEv) (h : write_chunk_model walOk resp p = .ok t) :
    t = [CEv.walWrite p, CEv.hotApply p] ∨ t = [CEv.walWrite p, CEv.coldWrite p] := by
  rw [write_chunk_model] at h
  by_cases hw : walOk = false
  · rw [if_pos hw] at h
    simp at h
  · rw [if_neg hw] at h
    rcases hh : hotAttempts resp p 0 3 with e | evs <;> rw [hh] at h
    · simp at h
    · simp only [Except.ok.injEq] at h
      rcases hotAttempts_shape resp p 3 0 evs hh with hs | hs <;>
        rw [hs] at h <;> [exact Or.inl h.symm; exact Or.inr h.symm]

theorem pair_trace_mem (p0 : Partn) (Y : CEv) (t2 l1 l2 : List CEv) (p : Partn)
    (hY : Y = CEv.hotApply p0 ∨ Y = CEv.coldWrite p0)
    (IH : ∀ l1 l2 : List CEv, t2 = l1 ++ CEv.hotApply p :: l2 → CEv.walWrite p ∈ l1)
    (hsplit : CEv.walWrite p0 :: Y :: t2 = l1 ++ CEv.hotApply p :: l2) :
    CEv.walWrite p ∈ l1 := by
  cases l1 with
  | nil => simp at hsplit
  | cons a l1' =>
    cases l1' with
    | nil =>
      simp only [List.cons_append, List.nil_append, List.cons.injEq] at hsplit
      obtain ⟨ha, hYeq, _⟩ := hsplit
      rcases hY with hh | hh
      · rw [hh] at hYeq
        have hp : p0 = p := by injection hYeq
        subst hp
        rw [← ha]
        exact List.mem_cons_self _ _
      · rw [hh] at hYeq
        exact absurd hYeq.symm (by simp)
    | cons b l1'' =>
      simp only [List.cons_append, List.cons.injEq] at hsplit
      obtain ⟨ha, _, ht2⟩ := hsplit
      rw [← ha]
      exact List.mem_cons_of_mem _ (List.mem_cons_of_mem _ (IH l1'' l2 ht2))

/-- C1: whenever the modelled batch_ingest returns success, every hot-apply
of a partition is preceded in the observable trace by the fsynced WAL WRITE
record of that same partition (tx, series, block, ts, vals, qs), and both
precede the success return (the trace is complete when Except.ok is
produced). -/
theorem C1_durability_before_ack (walOk : Partn → Bool) (resp : Partn → Nat → HotRes)
    (ps : List Partn) (tr : List CEv)
    (h : batch_ingest_model walOk resp ps = .ok tr) :
    ∀ (p : Partn) (l1 l2 : List CEv),
      tr = l1 ++ CEv.hotApply p :: l2 → CEv.walWrite p ∈ l1 := by
  induction ps generalizing tr with
  | nil =>
    simp only [batch_ingest_model, Except.ok.injEq] at h
    intro p l1 l2 hsplit
    rw [← h] at hsplit
    exact absurd hsplit (by simp)
  | cons p0 rest ih =>
    rw [batch_ingest_model] at h
    rcases hw : write_chunk_model (walOk p0) (resp p0) p0 with e | t <;> rw [hw] at h
    · simp at h
    · rcases hb : batch_ingest_model walOk resp rest with e | t2 <;> rw [hb] at h
      · simp at h
      · simp only [Except.ok.injEq] at h
        intro p l1 l2 hsplit
        rw [← h] at hsplit
        rcases write_chunk_model_shape _ _ _ _ hw with hs | hs <;> rw [hs] at hsplit
        · exact pair_trace_mem p0 (CEv.hotApply p0) t2 l1 l2 p (Or.inl rfl)
            (ih t2 hb p) (by simpa using hsplit)
        · exact pair_trace_mem p0 (CEv.coldWrite p0) t2 l1 l2 p (Or.inr rfl)
            (ih t2 hb p) (by simpa using hsplit)

/-- C1 witness: a single hot-applied partition; its WAL WRITE precedes the
hot apply in the trace. -/
theorem C1_witness :
    CEv.walWrite ⟨1, 1, 0, [0], [5], [Q_GOOD]⟩
      ∈ [CEv.walWrite ⟨1, 1, 0, [0], [5], [Q_GOOD]⟩] :=
  C1_durability_before_ack (fun _ => true) (fun _ _ => HotRes.ok)
    [⟨1, 1, 0, [0], [5], [Q_GOOD]⟩]
    [CEv.walWrite ⟨1, 1, 0, [0], [5], [Q_GOOD]⟩, CEv.hotApply ⟨1, 1, 0, [0], [5], [Q_GOOD]⟩]
    rfl ⟨1, 1, 0, [0], [5], [Q_GOOD]⟩
    [CEv.walWrite ⟨1, 1, 0, [0], [5], [Q_GOOD]⟩] [] rfl

/-! ## C10: the block-meta catalog's f64 columns (vodnik-server meta/block.rs)

upsert stores min/max/fst/lst/fst_valid/lst_valid through
num_traits::cast::<T, f64> (the Rust as-cast, IEEE round to nearest, ties to
even) into Double columns, and model_to_meta reads them back through
num_traits::cast::<f64, T>, which returns None outside the exclusive target
range and otherwise truncates; model_to_meta then substitutes a sentinel for
None (T::zero for the fst/lst casts, T::max_value for cast_min, T::min_value
for cast_max).  Integers are exact in the model: an f64 cell holding an
integer value is the integer itself. -/

/-- Floor base-2 logarithm, fuel-based so the kernel can evaluate it
(Nat.log2 uses well-founded recursion); 128 units of fuel cover every
number below 2 ^ 128, far beyond the u64/i64 inputs. ilog2Aux_eq_log2
bridges it to Nat.log2. -/
def ilog2Aux : Nat → Nat → Nat
  | 0, _ => 0
  | fuel + 1, n => if n < 2 then 0 else ilog2Aux fuel (n / 2) + 1

def ilog2 (n : Nat) : Nat := ilog2Aux 128 n

theorem ilog2Aux_eq_log2 (fuel : Nat) : ∀ n, n < 2 ^ fuel → ilog2Aux fuel n = Nat.log2 n := by
  induction fuel with
  | zero =>
    intro n hn
    have h0 : n = 0 := by omega
    subst h0
    rw [Nat.log2]
    simp [ilog2Aux]
  | succ f ih =>
    intro n hn
    unfold ilog2Aux
    rw [Nat.log2]
    by_cases h2 : n < 2
    · rw [if_pos h2, if_neg (by omega)]
    · rw [if_neg h2, if_pos (by omega),
        ih (n / 2) (Nat.div_lt_of_lt_mul (by rw [← Nat.pow_succ']; exact hn))]

theorem ilog2_eq_log2 (n : Nat) (h : n < 2 ^ 128) : ilog2 n = Nat.log2 n :=
  ilog2Aux_eq_log2 128 n h

/-- Rust u64-to-f64 as-cast for n below 2 ^ 64: round to nearest
representable (53-bit significand), ties to even. -/
def rndN (n : Nat) : Nat :=
  if n < 2 ^ 53 then n
  else
    let k := ilog2 n
    let s := k - 52
    let q := n / 2 ^ s
    let r := n % 2 ^ s
    if r < 2 ^ (s - 1) then q * 2 ^ s
    else if 2 ^ (s - 1) < r then (q + 1) * 2 ^ s
    else (q + q % 2) * 2 ^ s

/-- Signed integer to f64 (IEEE rounding is sign-symmetric). -/
def rndZ (z : Int) : Int :=
  if z < 0 then -(rndN (-z).toNat : Int) else (rndN z.toNat : Int)

/-- n is exactly representable as an IEEE double (for integers of u64/i64
magnitude): below 2 ^ 53, or divisible by the ulp 2 ^ (log2 n - 52). -/
def repr53 (n : Nat) : Prop := n < 2 ^ 53 ∨ n % 2 ^ (ilog2 n - 52) = 0

instance (n : Nat) : Decidable (repr53 n) := by
  unfold repr53
  infer_instance

/-- num_traits cast f64 -> u64 on an integer-valued double: Some of the
value in the exclusive range (-1, 2 ^ 64), None otherwise.  The range test
is phrased over 0 ≤ v and v.toNat so that it reduces without Int
subtractions against the huge literal. -/
def castF64toU64 (v : Int) : Option Nat :=
  if 0 ≤ v ∧ v.toNat < 2 ^ 64 then some v.toNat else none

/-- num_traits cast f64 -> i64 on an integer-valued double: Some of the
value for -2 ^ 63 <= v < 2 ^ 63, None otherwise (same phrasing over toNat:
(-v).toNat ≤ 2 ^ 63 says -2 ^ 63 ≤ v, and v.toNat < 2 ^ 63 says
v < 2 ^ 63). -/
def castF64toI64 (v : Int) : Option Int :=
  if (-v).toNat ≤ 2 ^ 63 ∧ v.toNat < 2 ^ 63 then some v else none

/-- Store-then-load of one u64 statistics field: upsert writes
Some (v as f64); model_to_meta casts back and falls back to the sentinel
(0 for cast, u64::MAX for cast_min, u64::MIN for cast_max). -/
def rtU64field (fallback : Nat) (v : Nat) : Nat :=
  ((some (rndZ (v : Int))).bind castF64toU64).getD fallback

/-- Store-then-load of one i64 statistics field. -/
def rtI64field (fallback : Int) (v : Int) : Int :=
  ((some (rndZ v)).bind castF64toI64).getD fallback

/-- count_non_missing / count_valid / qual_acc columns: stored as
(u32 value) as i64, read back as (i64 value) as u32. -/
def storeCount (c : Nat) : Int := (c : Int)

def readCount (x : Int) : Nat := (x % ((2 ^ 32 : Nat) : Int)).toNat

/-- BinaryAccumulator::to_blob / from_blob for a u128 sum. -/
def storeBlobU (s : Nat) : List Nat := leBytes 16 s

def readBlobU (b : List Nat) : Option Nat :=
  if b.length = 16 then some (leVal b) else none

/-- to_blob / from_blob for an i128 sum (little-endian two's complement). -/
def storeBlobI (s : Int) : List Nat := leBytes 16 (s % ((2 ^ 128 : Nat) : Int)).toNat

def readBlobI (b : List Nat) : Option Int :=
  if b.length = 16 then
    some (if leVal b < 2 ^ 127 then (leVal b : Int)
          else (leVal b : Int) - ((2 ^ 128 : Nat) : Int))
  else none

theorem rndN_eq_of_repr (v : Nat) (h : repr53 v) : rndN v = v := by
  rcases h with h | h
  · unfold rndN
    rw [if_pos h]
  · by_cases hlt : v < 2 ^ 53
    · unfold rndN
      rw [if_pos hlt]
    · simp only [rndN, if_neg hlt]
      rw [h, if_pos (Nat.pow_pos (by norm_num))]
      exact Nat.div_mul_cancel (Nat.dvd_of_mod_eq_zero h)

theorem rndZ_eq_of_repr (v : Int) (h : repr53 v.natAbs) : rndZ v = v := by
  unfold rndZ
  by_cases hv : v < 0
  · rw [if_pos hv]
    have habs : (-v).toNat = v.natAbs := by omega
    rw [habs, rndN_eq_of_repr _ h]
    omega
  · rw [if_neg hv]
    have habs : v.toNat = v.natAbs := by omega
    rw [habs, rndN_eq_of_repr _ h]
    omega

theorem rtU64field_of_repr (fb v : Nat) (hv : v < 2 ^ 64) (h : repr53 v) :
    rtU64field fb v = v := by
  unfold rtU64field
  rw [rndZ_eq_of_repr (v : Int) (by simpa using h)]
  show (castF64toU64 (v : Int)).getD fb = v
  unfold castF64toU64
  rw [if_pos ⟨by omega, by omega⟩]
  simp

theorem rtI64field_of_repr (fb : Int) (v : Int) (h1 : -(2 ^ 63) ≤ v) (h2 : v < 2 ^ 63)
    (h : repr53 v.natAbs) : rtI64field fb v = v := by
  unfold rtI64field
  rw [rndZ_eq_of_repr v h]
  show (castF64toI64 v).getD fb = v
  unfold castF64toI64
  rw [if_pos ⟨by omega, by omega⟩]
  rfl

theorem rndN_two_53_succ : rndN (2 ^ 53 + 1) = 2 ^ 53 := by decide

theorem rtU64field_two_53_succ (fb : Nat) : rtU64field fb (2 ^ 53 + 1) = 2 ^ 53 := by
  unfold rtU64field rndZ
  rw [if_neg (by omega)]
  have hc : ((2 ^ 53 + 1 : Nat) : Int).toNat = 2 ^ 53 + 1 := by omega
  rw [hc, rndN_two_53_succ]
  have hg : ((some ((2 ^ 53 : Nat) : Int)).bind castF64toU64).getD fb
      = (castF64toU64 ((2 ^ 53 : Nat) : Int)).getD fb := rfl
  have hb : castF64toU64 ((2 ^ 53 : Nat) : Int) = some (2 ^ 53) := by decide
  rw [hg, hb]
  simp

theorem rtI64field_two_53_succ (fb : Int) : rtI64field fb (2 ^ 53 + 1) = 2 ^ 53 := by
  unfold rtI64field rndZ
  rw [if_neg (by omega)]
  have hc : ((2 ^ 53 + 1 : Int)).toNat = 2 ^ 53 + 1 := by omega
  rw [hc, rndN_two_53_succ]
  have hg : ((some ((2 ^ 53 : Nat) : Int)).bind castF64toI64).getD fb
      = (castF64toI64 ((2 ^ 53 : Nat) : Int)).getD fb := rfl
  have hb : castF64toI64 ((2 ^ 53 : Nat) : Int) = some ((2 ^ 53 : Nat) : Int) := by decide
  rw [hg, hb]
  simp

theorem readCount_storeCount (c : Nat) (h : c < 2 ^ 32) : readCount (storeCount c) = c := by
  unfold readCount storeCount
  have h1 : ((c : Int)) % ((2 ^ 32 : Nat) : Int) = (c : Int) := by omega
  rw [h1]
  simp

theorem readBlobU_storeBlobU (s : Nat) (h : s < 2 ^ 128) :
    readBlobU (storeBlobU s) = some s := by
  unfold readBlobU storeBlobU
  rw [if_pos (leBytes_length 16 s)]
  rw [leVal_leBytes_of_lt (by norm_num; omega)]

theorem readBlobI_storeBlobI (s : Int) (h1 : -(2 ^ 127) ≤ s) (h2 : s < 2 ^ 127) :
    readBlobI (storeBlobI s) = some s := by
  unfold readBlobI storeBlobI
  rw [if_pos (leBytes_length 16 _)]
  have hm0 : (0 : Int) ≤ s % ((2 ^ 128 : Nat) : Int) := Int.emod_nonneg s (by norm_num)
  have hmlt : s % ((2 ^ 128 : Nat) : Int) < ((2 ^ 128 : Nat) : Int) :=
    Int.emod_lt_of_pos s (by norm_num)
  have hval : leVal (leBytes 16 (s % ((2 ^ 128 : Nat) : Int)).toNat)
      = (s % ((2 ^ 128 : Nat) : Int)).toNat := by
    apply leVal_leBytes_of_lt
    norm_num
    omega
  rw [hval]
  by_cases hs : 0 ≤ s
  · have he : s % ((2 ^ 128 : Nat) : Int) = s := by omega
    rw [if_pos (by omega)]
    have h9 : (((s % ((2 ^ 128 : Nat) : Int)).toNat : Nat) : Int) = s := by omega
    rw [h9]
  · have he : s % ((2 ^ 128 : Nat) : Int) = s + ((2 ^ 128 : Nat) : Int) := by omega
    rw [if_neg (by omega)]
    have h9 : (((s % ((2 ^ 128 : Nat) : Int)).toNat : Nat) : Int)
        - ((2 ^ 128 : Nat) : Int) = s := by omega
    rw [h9]

set_option maxRecDepth 4000 in
/-- C10 counterexample: the min column of a BlockMeta with min = u64::MAX
(and likewise i64::MAX) survives the store/load round trip even though the
value is NOT exactly representable in f64 — the value rounds up to 2 ^ 64
(resp. 2 ^ 63), the cast back is out of range and returns None, and
model_to_meta's unwrap_or(T::max_value()) reproduces the original.  So the
fields are not preserved ONLY when representable. -/
theorem C10_counterexample_sentinel_roundtrip :
    rtU64field (2 ^ 64 - 1) (2 ^ 64 - 1) = 2 ^ 64 - 1 ∧ ¬repr53 (2 ^ 64 - 1)
    ∧ rtI64field ((2 ^ 63 - 1 : Nat) : Int) ((2 ^ 63 - 1 : Nat) : Int)
        = ((2 ^ 63 - 1 : Nat) : Int)
    ∧ ¬repr53 (2 ^ 63 - 1) := by decide

/-- C10 (amended): the catalog stores min, max, fst, lst, fst_valid and
lst_valid by numeric cast to f64 and back, so the round trip preserves a
field whenever its value is exactly representable in f64, and for some
BlockMeta of u64 and of i64 (min = 2 ^ 53 + 1) the value read back differs
(2 ^ 53); a non-representable value can still be preserved when the cast
back is out of range and the sentinel fallback happens to equal it (the
counterexample).  The counts and quality accumulators (u32 via i64 columns)
and the sum (a raw 16-byte blob) are preserved exactly for all inputs. -/
theorem C10_meta_store_roundtrip :
    (∀ fb v : Nat, v < 2 ^ 64 → repr53 v → rtU64field fb v = v)
    ∧ (∀ fb : Nat, rtU64field fb (2 ^ 53 + 1) = 2 ^ 53)
    ∧ (∀ (fb v : Int), -(2 ^ 63) ≤ v → v < 2 ^ 63 → repr53 v.natAbs →
        rtI64field fb v = v)
    ∧ (∀ fb : Int, rtI64field fb (2 ^ 53 + 1) = 2 ^ 53)
    ∧ (∀ c : Nat, c < 2 ^ 32 → readCount (storeCount c) = c)
    ∧ (∀ s : Nat, s < 2 ^ 128 → readBlobU (storeBlobU s) = some s)
    ∧ (∀ s : Int, -(2 ^ 127) ≤ s → s < 2 ^ 127 → readBlobI (storeBlobI s) = some s) :=
  ⟨rtU64field_of_repr, rtU64field_two_53_succ, rtI64field_of_repr,
    rtI64field_two_53_succ, readCount_storeCount, readBlobU_storeBlobU,
    readBlobI_storeBlobI⟩

/-- C10 witness: the amended round-trip theorem at concrete values. -/
theorem C10_witness :
    rtU64field 0 (2 ^ 53) = 2 ^ 53 ∧ readCount (storeCount 7) = 7
      ∧ readBlobI (storeBlobI (-5)) = some (-5) :=
  ⟨C10_meta_store_roundtrip.1 0 (2 ^ 53) (by norm_num) (by decide),
    C10_meta_store_roundtrip.2.2.2.2.1 7 (by norm_num),
    C10_meta_store_roundtrip.2.2.2.2.2.2 (-5) (by norm_num) (by norm_num)⟩

end Vodnik
